import Mathlib

/-!
Shallow embedding of the quran-databases repository (src/build_quran_db.py,
src/get_quran_pages.py, src/config.py) and proofs about its claims.

Conventions of the embedding:
* JSON dictionaries are modelled as association lists in document order
  (Python 3 dicts preserve insertion order).
* The combined corpus document `{"pages": [...]}` is modelled by its pages
  list; each element of that list is one "grouping" (one dict of the list),
  an association list from page number to fragment list.  The textual keys
  `"page_<N>"` and the chapter-name map keys (decimal strings) are modelled
  directly by their parsed numbers.
* SQLite is modelled explicitly: the four tables are lists of row records,
  every `cursor.execute` that inserts appends a `Stmt` to a per-connection
  trace, and the checks SQLite would perform (foreign keys, which are
  switched on by `PRAGMA foreign_keys = ON` in config.DB_PRAGMAS; UNIQUE /
  PRIMARY KEY constraints; CHECK constraints) are performed against the
  pending state before the statement takes effect.  A failing statement
  raises (the `err` constructor), carrying the session as it was before
  the failing statement.
* `AUTOINCREMENT` on verses.verse_id over a freshly created store assigns
  ids 1, 2, 3, ... in insertion order; the model assigns
  `verses.length + 1`, which also plays the role of `cursor.lastrowid`.
-/

/-- One verse fragment as it appears on a page of the corpus document:
the JSON object `{"chapter": c, "verse": v, "text": t}`. -/
structure Fragment where
  chapter : Nat
  verse : Nat
  text : String
deriving DecidableEq

/-- One entry of a grouping dict: parsed page number paired with the
page's ordered fragment list (`"page_<N>": [...]`). -/
abbrev PageEntry := Nat × List Fragment

/-- One grouping: one dict appearing in the combined document's pages
list (the downloader emits single-entry dicts, but the loader iterates
`.items()`, so several entries are possible). -/
abbrev Grouping := List PageEntry

/-- The pages list of the combined corpus document. -/
abbrev Corpus := List Grouping

/-- The chapter-name map: parsed chapter number keys paired with names,
in document order. -/
abbrev ChapterNames := List (Nat × String)

/-- A row of the `chapters` table. -/
structure ChapterRow where
  chapter_id : Nat
  chapter_name : String
  total_verses : Nat
deriving DecidableEq

/-- A row of the `verses` table. -/
structure VerseRow where
  verse_id : Nat
  chapter_id : Nat
  verse_number : Nat
  verse_text : String
deriving DecidableEq

/-- A row of the `page_verses` table. -/
structure PageVerseRow where
  page_id : Nat
  verse_id : Nat
  verse_order : Nat
  starts_new_chapter : Bool
deriving DecidableEq

/-- The four tables created by `create_tables`. -/
structure DB where
  chapters : List ChapterRow
  verses : List VerseRow
  pages : List Nat
  page_verses : List PageVerseRow
deriving DecidableEq

/-- The store right after `create_tables` on a fresh database file. -/
def DB.empty : DB := ⟨[], [], [], []⟩

/-- One successfully executed statement of a load-run connection. -/
inductive Stmt where
  | insChapter (row : ChapterRow)
  | insVerse (row : VerseRow)
  | insPage (p : Nat)
  | insPageVerse (row : PageVerseRow)
  | commit
deriving DecidableEq

/-- A database session: the pending (uncommitted) state seen by the
cursor, plus the trace of statements executed so far on the
connection. -/
structure Sess where
  db : DB
  trace : List Stmt
deriving DecidableEq

/-- Result of running a sequence of statements: `err` models a raised
`sqlite3` error, carrying the session as of just before the failing
statement. -/
inductive SRes where
  | ok (s : Sess)
  | err (s : Sess) (msg : String)
deriving DecidableEq

/-- The chapter ids present in the `chapters` table. -/
def chapterIds (db : DB) : List Nat := db.chapters.map (·.chapter_id)

/-- `INSERT INTO chapters ...` with the PRIMARY KEY and
`valid_total_verses` CHECK constraints. -/
def execInsChapter (s : Sess) (row : ChapterRow) : SRes :=
  if row.chapter_id ∈ chapterIds s.db then
    .err s "UNIQUE constraint failed: chapters.chapter_id"
  else if row.total_verses = 0 then
    .err s "CHECK constraint failed: valid_total_verses"
  else
    .ok ⟨{ s.db with chapters := s.db.chapters ++ [row] },
         s.trace ++ [.insChapter row]⟩

/-- `INSERT INTO verses ...` with the foreign key to chapters (enforced
by the foreign_keys pragma), the `valid_verse_number` CHECK, and the
UNIQUE(chapter_id, verse_number) constraint. -/
def execInsVerse (s : Sess) (row : VerseRow) : SRes :=
  if row.chapter_id ∈ chapterIds s.db then
    if row.verse_number = 0 then
      .err s "CHECK constraint failed: valid_verse_number"
    else if s.db.verses.any fun v =>
        v.chapter_id == row.chapter_id && v.verse_number == row.verse_number then
      .err s "UNIQUE constraint failed: verses.chapter_id, verses.verse_number"
    else
      .ok ⟨{ s.db with verses := s.db.verses ++ [row] },
           s.trace ++ [.insVerse row]⟩
  else
    .err s "FOREIGN KEY constraint failed"

/-- `INSERT INTO pages ...` wrapped in `try/except sqlite3.IntegrityError:
pass`: a duplicate page id (the only possible integrity error here) is
ignored and the session is unchanged. -/
def execInsPage (s : Sess) (p : Nat) : Sess :=
  if p ∈ s.db.pages then s
  else ⟨{ s.db with pages := s.db.pages ++ [p] }, s.trace ++ [.insPage p]⟩

/-- `INSERT INTO page_verses ...` with both foreign keys, the
PRIMARY KEY (page_id, verse_id) and the UNIQUE (page_id, verse_order)
constraints. -/
def execInsPageVerse (s : Sess) (row : PageVerseRow) : SRes :=
  if row.page_id ∈ s.db.pages then
    if s.db.verses.any (fun v => v.verse_id == row.verse_id) then
      if s.db.page_verses.any fun r =>
          r.page_id == row.page_id && r.verse_id == row.verse_id then
        .err s "UNIQUE constraint failed: page_verses.page_id, page_verses.verse_id"
      else if s.db.page_verses.any fun r =>
          r.page_id == row.page_id && r.verse_order == row.verse_order then
        .err s "UNIQUE constraint failed: page_verses.page_id, page_verses.verse_order"
      else
        .ok ⟨{ s.db with page_verses := s.db.page_verses ++ [row] },
             s.trace ++ [.insPageVerse row]⟩
    else
      .err s "FOREIGN KEY constraint failed"
  else
    .err s "FOREIGN KEY constraint failed"

/-- The in-memory verse dedup map `verse_cache`: the cache key
`f"{chapter_id}_{verse_number}"` is modelled by the pair itself (the
formatting is injective on pairs of naturals), mapped to the cached
`lastrowid`. -/
abbrev Cache := List ((Nat × Nat) × Nat)

/-- `verse_key in verse_cache` / `verse_cache[verse_key]` lookup. -/
def cacheFind : Cache → (Nat × Nat) → Option Nat
  | [], _ => none
  | e :: es, k => if e.1 = k then some e.2 else cacheFind es k

/-- Result of the verse-processing loop: on success both the session and
the dedup cache survive. -/
inductive PRes where
  | ok (s : Sess) (cache : Cache)
  | err (s : Sess) (msg : String)
deriving DecidableEq

/-- The inner fragment loop of `_insert_pages_and_verses` for one page
entry: `cur` is `current_chapter` (`None` initially), `ord` is
`verse_order`.  Each fragment inserts its verse on first sight of its
(chapter, verse) key, then links page and verse with the running order
and the `starts_new_chapter` flag `current_chapter != chapter_id`. -/
def processFrags (p : Nat) (cur : Option Nat) (ord : Nat) (cache : Cache)
    (s : Sess) : List Fragment → PRes
  | [] => .ok s cache
  | f :: fs =>
    let key := (f.chapter, f.verse)
    match cacheFind cache key with
    | some vid =>
      match execInsPageVerse s ⟨p, vid, ord, decide (cur ≠ some f.chapter)⟩ with
      | .err s' m => .err s' m
      | .ok s' => processFrags p (some f.chapter) (ord + 1) cache s' fs
    | none =>
      let vid := s.db.verses.length + 1
      match execInsVerse s ⟨vid, f.chapter, f.verse, f.text⟩ with
      | .err s' m => .err s' m
      | .ok s1 =>
        match execInsPageVerse s1 ⟨p, vid, ord, decide (cur ≠ some f.chapter)⟩ with
        | .err s' m => .err s' m
        | .ok s2 =>
          processFrags p (some f.chapter) (ord + 1) (cache ++ [(key, vid)]) s2 fs

/-- One `(page_num_str, verses)` entry of a grouping: insert the page
(ignoring a duplicate), reset the chapter cursor and the order counter,
then process the entry's fragments. -/
def processEntry (st : Sess) (cache : Cache) (e : PageEntry) : PRes :=
  processFrags e.1 none 0 cache (execInsPage st e.1) e.2

/-- The entries loop of `_insert_pages_and_verses` over one grouping. -/
def processEntries (st : Sess) (cache : Cache) : Grouping → PRes
  | [] => .ok st cache
  | e :: es =>
    match processEntry st cache e with
    | .err s m => .err s m
    | .ok s c => processEntries s c es

/-- The outer loop of `_insert_pages_and_verses` over the corpus
document's pages list. -/
def processGroupings (st : Sess) (cache : Cache) : Corpus → PRes
  | [] => .ok st cache
  | g :: gs =>
    match processEntries st cache g with
    | .err s m => .err s m
    | .ok s c => processGroupings s c gs

/-- One increment of the `chapter_verse_counts` dict:
`counts[c] = counts.get(c, 0) + 1`. -/
def bump (m : Nat → Nat) (c : Nat) : Nat → Nat :=
  fun x => if x = c then m x + 1 else m x

/-- `_calculate_verse_counts`, inner fragment loop. -/
def calcCountsFrags (m : Nat → Nat) : List Fragment → (Nat → Nat)
  | [] => m
  | f :: fs => calcCountsFrags (bump m f.chapter) fs

/-- `_calculate_verse_counts`, loop over one grouping's values. -/
def calcCountsEntries (m : Nat → Nat) : Grouping → (Nat → Nat)
  | [] => m
  | e :: es => calcCountsEntries (calcCountsFrags m e.2) es

/-- `_calculate_verse_counts`, outer loop over the pages list. -/
def calcCountsGroupings (m : Nat → Nat) : Corpus → (Nat → Nat)
  | [] => m
  | g :: gs => calcCountsGroupings (calcCountsEntries m g) gs

/-- `_calculate_verse_counts`: occurrences per chapter over the whole
corpus document, starting from the empty dict (default 0). -/
def calculateVerseCounts (q : Corpus) : Nat → Nat :=
  calcCountsGroupings (fun _ => 0) q

/-- `_insert_chapters`: iterate the chapter-name map in document order;
a chapter with a zero tally is skipped with a warning, the rest are
inserted with the tally as `total_verses`. -/
def insertChapters (s : Sess) (counts : Nat → Nat) : ChapterNames → SRes
  | [] => .ok s
  | (cid, name) :: rest =>
    if counts cid = 0 then insertChapters s counts rest
    else
      match execInsChapter s ⟨cid, name, counts cid⟩ with
      | .err s' m => .err s' m
      | .ok s' => insertChapters s' counts rest

/-- The body of `load_data`'s `with get_connection()` block on a fresh
store: Pass 1 (verse counts), chapter insertion, Pass 2 (pages and
verses), all on one connection. -/
def runLoad (q : Corpus) (ns : ChapterNames) : SRes :=
  match insertChapters ⟨DB.empty, []⟩ (calculateVerseCounts q) ns with
  | .err s m => .err s m
  | .ok s =>
    match processGroupings s [] q with
    | .ok s' _ => .ok s'
    | .err s' m => .err s' m

/-- Outcome of a `load_data` call, as observed by its caller:
`success` models a normal return after `conn.commit()`; `silentAbort`
models the early `return` after "Failed to load required JSON data"
(a normal return, nothing raised, no connection opened); `raised`
models an exception propagating out (`raise` at the end of the
`except` block), carrying the connection's session at the failure. -/
inductive LoadOutcome where
  | success (s : Sess)
  | silentAbort
  | raised (s : Sess) (msg : String)
deriving DecidableEq

/-- `load_data`: `_load_json` yields `none` for a missing file or
malformed JSON; `not quran_data or not chapters_names` is true when
either document failed to load or the chapter-name map is the empty
dict (the corpus document, having its "pages" key, is never falsy);
in that case the function logs and returns.  Otherwise the single
transaction runs and is committed exactly once at the end. -/
def loadData (quranJson : Option Corpus) (namesJson : Option ChapterNames) :
    LoadOutcome :=
  match quranJson, namesJson with
  | none, _ => .silentAbort
  | some _, none => .silentAbort
  | some q, some ns =>
    if ns = [] then .silentAbort
    else
      match runLoad q ns with
      | .ok s => .success ⟨s.db, s.trace ++ [.commit]⟩
      | .err s m => .raised s m

/-- The statements a `load_data` call executed on its connection. -/
def traceOf : LoadOutcome → List Stmt
  | .success s => s.trace
  | .silentAbort => []
  | .raised s _ => s.trace

/-- Whether the `load_data` call raised. -/
def isRaised : LoadOutcome → Bool
  | .raised _ _ => true
  | _ => false

/-- The final pending state of a completed `load_data` call. -/
def outcomeDB : LoadOutcome → Option DB
  | .success s => some s.db
  | _ => none

/-- Effect of one successfully executed statement on a table state
(no checks: the statement already succeeded). -/
def applyStmt (db : DB) : Stmt → DB
  | .insChapter r => { db with chapters := db.chapters ++ [r] }
  | .insVerse r => { db with verses := db.verses ++ [r] }
  | .insPage p => { db with pages := db.pages ++ [p] }
  | .insPageVerse r => { db with page_verses := db.page_verses ++ [r] }
  | .commit => db

/-- SQLite transaction semantics over a statement trace: the pair is
(persisted state, pending state); inserts act on the pending state and
`commit` makes the pending state durable. -/
def persistStep : DB × DB → Stmt → DB × DB
  | (_per, pend), .commit => (pend, pend)
  | (per, pend), s => (per, applyStmt pend s)

/-- The durable state after a connection that executed `tr` closes:
everything after the last commit is rolled back. -/
def sqlitePersist (init : DB) (tr : List Stmt) : DB :=
  (tr.foldl persistStep (init, init)).1

/-! ## Corpus-derived quantities used by the claims -/

/-- All page entries of the corpus document, in iteration order. -/
def allEntries (q : Corpus) : List PageEntry := q.flatten

/-- All fragments of the corpus document, in iteration order. -/
def allFrags (q : Corpus) : List Fragment :=
  ((allEntries q).map (·.2)).flatten

/-- The (chapter, verse number) natural keys of a fragment list. -/
def pairsOf (l : List Fragment) : List (Nat × Nat) :=
  l.map fun f => (f.chapter, f.verse)

/-- The fragments an entry contributes to page `p`. -/
def entryFragsFor (p : Nat) (e : PageEntry) : List Fragment :=
  if e.1 = p then e.2 else []

/-- The fragments appearing on page `p` anywhere in the corpus document,
in iteration order. -/
def fragsOnPage (q : Corpus) (p : Nat) : List Fragment :=
  ((allEntries q).map (entryFragsFor p)).flatten

/-- The `page_verses` rows for page `p`, in insertion order. -/
def pvFor (db : DB) (p : Nat) : List PageVerseRow :=
  db.page_verses.filter fun r => r.page_id == p

/-- The `starts_new_chapter` flags the fragment loop computes for a
fragment sequence, given the chapter cursor: the flag is
`current_chapter != chapter_id` and the cursor then advances. -/
def chapterFlags (cur : Option Nat) : List Fragment → List Bool
  | [] => []
  | f :: fs => decide (cur ≠ some f.chapter) :: chapterFlags (some f.chapter) fs

/-! ## Downloader (src/get_quran_pages.py) -/

/-- The parse of a response body: `await response.json()` followed by
`data["pages"]` either yields the page's fragment list or raises (bad
JSON or a missing key), which the handler turns into absence. -/
inductive ParseOutcome where
  | parsed (pages : List Fragment)
  | malformed
deriving DecidableEq

/-- What the network produced for one request: a response with a status
code and body, or an exception (timeout, connection error, ...). -/
inductive HttpResult where
  | resp (status : Nat) (body : ParseOutcome)
  | netError
deriving DecidableEq

/-- The per-page artifact `{"page_<N>": data["pages"]}`. -/
structure PageObject where
  pageNum : Nat
  fragments : List Fragment
deriving DecidableEq

/-- The `DownloadResult` dataclass. -/
structure DownloadResult where
  page_num : Nat
  data : Option PageObject
deriving DecidableEq

/-- `download_page`: on status 200 with a parsable body, wrap the
fragment list as the page object; on any other status, a parse failure,
or any exception, return the absence marker for that page instead of
raising.  (The successful branch also writes the per-page artifact,
an I/O effect outside this model.) -/
def downloadPage (n : Nat) (r : HttpResult) : DownloadResult :=
  match r with
  | .resp status body =>
    if status = 200 then
      match body with
      | .parsed frs => ⟨n, some ⟨n, frs⟩⟩
      | .malformed => ⟨n, none⟩
    else ⟨n, none⟩
  | .netError => ⟨n, none⟩

/-- Whether the network outcome is the recognized success: status 200
with a body the handler can turn into the page's fragment list. -/
def isSuccessR : HttpResult → Bool
  | .resp status (.parsed _) => status == 200
  | _ => false

/-- `process_batch`: fetch every page of the batch (gather preserves
task order, so results come back in batch order) and keep the data of
the results that have some. -/
def processBatch (net : Nat → HttpResult) (ps : List Nat) : List PageObject :=
  (ps.map fun p => downloadPage p (net p)).filterMap (·.data)

/-- Python's `range(a, b, step)` for a positive step. -/
def pyRange (a b step : Nat) : List Nat :=
  List.range' a ((b - a + step - 1) / step) step

/-- `download_all`: process the page range in fixed-size sequential
batches (`range(start, end + 1, batch_size)`), each batch covering
`range(batch_start, min(batch_start + batch_size, end + 1))`, and
extend the accumulated list with each batch's surviving page objects
in order. -/
def downloadAll (net : Nat → HttpResult) (startPage endPage batchSize : Nat) :
    List PageObject :=
  ((pyRange startPage (endPage + 1) batchSize).map fun bs =>
    processBatch net (pyRange bs (min (bs + batchSize) (endPage + 1)) 1)).flatten

/-! ## Downloader lemmas -/

theorem downloadPage_page_num (n : Nat) (r : HttpResult) :
    (downloadPage n r).page_num = n := by
  cases r with
  | netError => rfl
  | resp status body =>
    by_cases h : status = 200 <;> cases body <;> simp [downloadPage, h]

theorem downloadPage_data_isSome (n : Nat) (r : HttpResult) :
    ((downloadPage n r).data).isSome = isSuccessR r := by
  cases r with
  | netError => rfl
  | resp status body =>
    by_cases h : status = 200 <;> cases body <;> simp [downloadPage, isSuccessR, h]

theorem downloadPage_data_pageNum (n : Nat) (r : HttpResult) (obj : PageObject)
    (h : (downloadPage n r).data = some obj) : obj.pageNum = n := by
  cases r with
  | netError => simp [downloadPage] at h
  | resp status body =>
    by_cases hs : status = 200
    · cases body with
      | parsed frs =>
        simp [downloadPage, hs] at h
        rw [← h]
      | malformed => simp [downloadPage, hs] at h
    · cases body <;> simp [downloadPage, hs] at h

theorem processBatch_eq_filterMap (net : Nat → HttpResult) (ps : List Nat) :
    processBatch net ps = ps.filterMap fun p => (downloadPage p (net p)).data := by
  simp only [processBatch, List.filterMap_map]
  rfl

theorem pyRange_nil (a b s : Nat) (h : b ≤ a) : pyRange a b s = [] := by
  have hba : b - a = 0 := by omega
  unfold pyRange
  rw [hba]
  rcases Nat.eq_zero_or_pos s with hs | hs
  · simp [hs]
  · rw [Nat.div_eq_of_lt (by omega)]
    rfl

theorem pyRange_cons (a b s : Nat) (h : a < b) (hs : 0 < s) :
    pyRange a b s = a :: pyRange (a + s) b s := by
  unfold pyRange
  rw [show b - a + s - 1 = (b - a - 1) + s from by omega, Nat.add_div_right _ hs,
    List.range'_succ]
  have hnum : (b - a - 1) / s = (b - (a + s) + s - 1) / s := by
    rcases le_or_lt (a + s) b with hc | hc
    · rw [show b - (a + s) + s - 1 = b - a - 1 from by omega]
    · rw [show b - (a + s) = 0 from by omega]
      rw [Nat.div_eq_of_lt (by omega), Nat.div_eq_of_lt (by omega)]
  rw [hnum]

theorem pyRange_one (a b : Nat) : pyRange a b 1 = List.range' a (b - a) 1 := by
  unfold pyRange
  congr 1
  omega

theorem downloadBatches_eq (net : Nat → HttpResult) (bsz : Nat) (hb : 0 < bsz)
    (stop : Nat) :
    ∀ (n a : Nat), stop - a ≤ n →
      ((pyRange a stop bsz).map fun bs =>
          processBatch net (pyRange bs (min (bs + bsz) stop) 1)).flatten
        = (List.range' a (stop - a) 1).filterMap
            fun p => (downloadPage p (net p)).data := by
  intro n
  induction n with
  | zero =>
    intro a ha
    rw [pyRange_nil _ _ _ (by omega), show stop - a = 0 from by omega]
    rfl
  | succ n ih =>
    intro a ha
    rcases le_or_lt stop a with hge | hlt
    · rw [pyRange_nil _ _ _ hge, show stop - a = 0 from by omega]
      rfl
    · rw [pyRange_cons _ _ _ hlt hb, List.map_cons, List.flatten_cons,
        ih (a + bsz) (by omega), processBatch_eq_filterMap, pyRange_one,
        ← List.filterMap_append]
      congr 1
      rcases le_or_lt (a + bsz) stop with hc | hc
      · rw [show min (a + bsz) stop = a + bsz from by omega]
        have happ := List.range'_append a (a + bsz - a) (stop - (a + bsz)) 1
        rw [show a + 1 * (a + bsz - a) = a + bsz from by omega] at happ
        rw [happ, show stop - (a + bsz) + (a + bsz - a) = stop - a from by omega]
      · rw [show min (a + bsz) stop = stop from by omega,
          show stop - (a + bsz) = 0 from by omega]
        simp

theorem filterMap_map_pageNum (net : Nat → HttpResult) : ∀ (l : List Nat),
    ((l.filterMap fun p => (downloadPage p (net p)).data).map (·.pageNum))
      = l.filter fun p => isSuccessR (net p) := by
  intro l
  induction l with
  | nil => rfl
  | cons p ps ih =>
    rw [List.filterMap_cons, List.filter_cons]
    cases h : (downloadPage p (net p)).data with
    | none =>
      have hf : isSuccessR (net p) = false := by
        rw [← downloadPage_data_isSome p (net p), h]
        rfl
      simp [hf, ih]
    | some obj =>
      have ht : isSuccessR (net p) = true := by
        rw [← downloadPage_data_isSome p (net p), h]
        rfl
      have hpn : obj.pageNum = p := downloadPage_data_pageNum p (net p) obj h
      simp [ht, ih, hpn]

/-- C6: for a page range [1, N] with a positive batch size, the page
numbers of `download_all`'s accumulated page list are exactly the
fetch-successful page numbers of [1, N] in original ascending order;
in particular, with no failures the list has length N and its page
numbers are sorted strictly ascending. -/
theorem C6_download_order (net : Nat → HttpResult) (N bsz : Nat) (hb : 0 < bsz) :
    ((downloadAll net 1 N bsz).map (·.pageNum)
        = (List.range' 1 N 1).filter fun p => isSuccessR (net p))
    ∧ ((∀ p ∈ List.range' 1 N 1, isSuccessR (net p) = true) →
        (downloadAll net 1 N bsz).length = N
        ∧ List.Pairwise (· < ·) ((downloadAll net 1 N bsz).map (·.pageNum))) := by
  have hmain : downloadAll net 1 N bsz
      = (List.range' 1 N 1).filterMap fun p => (downloadPage p (net p)).data := by
    unfold downloadAll
    have := downloadBatches_eq net bsz hb (N + 1) (N + 1) 1 (by omega)
    rw [show N + 1 - 1 = N from by omega] at this
    exact this
  have hnums : (downloadAll net 1 N bsz).map (·.pageNum)
      = (List.range' 1 N 1).filter fun p => isSuccessR (net p) := by
    rw [hmain]
    exact filterMap_map_pageNum net _
  refine ⟨hnums, fun hall => ⟨?_, ?_⟩⟩
  · have hlen : ((downloadAll net 1 N bsz).map (·.pageNum)).length = N := by
      rw [hnums, List.filter_eq_self.mpr hall, List.length_range']
    rwa [List.length_map] at hlen
  · rw [hnums]
    exact List.Pairwise.sublist (List.filter_sublist _) (List.pairwise_lt_range' 1 N)

/-- Witness for C6 at N = 3, batch size 2, an always-successful fetch. -/
theorem C6_download_order_witness :
    (downloadAll (fun _ => HttpResult.resp 200 (ParseOutcome.parsed [])) 1 3 2).length
      = 3 :=
  ((C6_download_order (fun _ => HttpResult.resp 200 (ParseOutcome.parsed [])) 3 2
    (by decide)).2 (by decide)).1

/-- C7: `download_page` is total — for every page number and every
network outcome it returns a result tagged with that page number, and
on any non-success outcome (non-200 status, parse failure, or a raised
exception) the result carries the absence marker `data = None` rather
than propagating an error (the return type has no failure channel). -/
theorem C7_download_page_total (n : Nat) (r : HttpResult) :
    (downloadPage n r).page_num = n
    ∧ (isSuccessR r = false → (downloadPage n r).data = none) := by
  refine ⟨downloadPage_page_num n r, fun h => ?_⟩
  have hs := downloadPage_data_isSome n r
  rw [h] at hs
  cases hd : (downloadPage n r).data with
  | none => rfl
  | some obj =>
    rw [hd] at hs
    simp at hs

/-- Witness for C7 at page 5 and a 404 response. -/
theorem C7_download_page_total_witness :
    (downloadPage 5 (HttpResult.resp 404 ParseOutcome.malformed)).data = none :=
  (C7_download_page_total 5 (HttpResult.resp 404 ParseOutcome.malformed)).2 (by decide)

/-! ## Concrete inputs used by counterexamples and witnesses -/

/-- A chapter-name map with the single chapter 1. -/
def namesCh1 : ChapterNames := [(1, "Ch1")]

/-- A corpus in which the (chapter 1, verse 1) pair appears as a
fragment on two different pages. -/
def corpusDupPair : Corpus := [[(1, [⟨1, 1, "a"⟩])], [(2, [⟨1, 1, "a"⟩])]]

/-- The store a load of `corpusDupPair` with `namesCh1` produces. -/
def dupPairDB : DB :=
  ⟨[⟨1, "Ch1", 2⟩], [⟨1, 1, 1, "a"⟩], [1, 2],
   [⟨1, 1, 0, true⟩, ⟨2, 1, 0, true⟩]⟩

/-- A corpus in which page 1 appears twice, both occurrences carrying a
fragment. -/
def corpusDupPage : Corpus := [[(1, [⟨1, 1, "a"⟩]), (1, [⟨1, 2, "b"⟩])]]

/-- A corpus in which page 1 appears twice, the second occurrence with
no fragments. -/
def corpusDupPageEmpty : Corpus := [[(1, [⟨1, 1, "a"⟩]), (1, [])]]

/-- A corpus in which page 1 appears twice, the first occurrence with
no fragments and the second carrying one. -/
def corpusDupPageEmptyFirst : Corpus := [[(1, []), (1, [⟨1, 1, "a"⟩])]]

/-- A one-page, one-fragment corpus. -/
def corpusSimple : Corpus := [[(1, [⟨1, 1, "a"⟩])]]

/-- A corpus whose only fragment references chapter 2, which `namesCh1`
does not cover. -/
def corpusBadChapter : Corpus := [[(1, [⟨2, 1, "t"⟩])]]

/-- C1, counterexample: on a corpus where the (chapter 1, verse 1) pair
appears as a fragment on two pages, the load completes and the inserted
Chapter row carries total_verses = 2 (Pass 1 tallies fragment
occurrences), while exactly 1 distinct Verse row references chapter 1
(Pass 2 deduplicates by the (chapter, verse) key) — so total_verses
does not equal the number of distinct Verse rows, refuting the claim
for corpora with repeated pairs. -/
theorem C1_counterexample :
    outcomeDB (loadData (some corpusDupPair) (some namesCh1)) = some dupPairDB
    ∧ dupPairDB.chapters = [⟨1, "Ch1", 2⟩]
    ∧ (dupPairDB.verses.filter fun v => v.chapter_id == 1).length = 1 :=
  ⟨rfl, rfl, rfl⟩

/-- C5, counterexample: when the same page number appears twice in the
input groupings and the second occurrence also carries fragments, the
load run raises (the second occurrence's page_verses insertion restarts
verse_order at 0 and violates the UNIQUE (page_id, verse_order)
constraint), refuting "no error raised". -/
theorem C5_counterexample :
    isRaised (loadData (some corpusDupPage) (some namesCh1)) = true := rfl

/-- C8, counterexample: when the corpus document is missing (or
malformed, both making `_load_json` yield nothing), `load_data` logs
and returns normally — the outcome is the silent early return, not a
raised error, so the failure is not surfaced to the caller. -/
theorem C8_counterexample :
    loadData none (some namesCh1) = LoadOutcome.silentAbort := rfl

/-- C8, amended: if either required JSON document is missing or
malformed, `load_data` returns before opening a connection — no row of
any table is inserted (the statement trace is empty, so the persisted
store is unchanged) — but the failure is only logged: the caller sees
a normal return, not an exception. -/
theorem C8_fatal_input (q : Corpus) (ns : ChapterNames) (init : DB) :
    loadData none (some ns) = LoadOutcome.silentAbort
    ∧ loadData (some q) none = LoadOutcome.silentAbort
    ∧ sqlitePersist init (traceOf (loadData none (some ns))) = init
    ∧ sqlitePersist init (traceOf (loadData (some q) none)) = init :=
  ⟨rfl, rfl, rfl, rfl⟩

/-- C10, counterexample: a fragment referencing a chapter absent from
the chapter-name map does not always make the load raise — with an
*empty* chapter-name map (which omits every chapter) the falsy-input
check makes `load_data` return silently before touching the store. -/
theorem C10_counterexample :
    loadData (some corpusSimple) (some ([] : ChapterNames)) = LoadOutcome.silentAbort :=
  rfl

/-! ## Structural lemmas about the statement executors -/

theorem execInsChapter_ok {s : Sess} {row : ChapterRow} {s' : Sess}
    (h : execInsChapter s row = .ok s') :
    s'.db.chapters = s.db.chapters ++ [row]
    ∧ s'.db.verses = s.db.verses
    ∧ s'.db.pages = s.db.pages
    ∧ s'.db.page_verses = s.db.page_verses
    ∧ s'.trace = s.trace ++ [.insChapter row]
    ∧ row.chapter_id ∉ chapterIds s.db
    ∧ row.total_verses ≠ 0 := by
  unfold execInsChapter at h
  split_ifs at h with h1 h2
  all_goals cases h
  exact ⟨rfl, rfl, rfl, rfl, rfl, h1, h2⟩

theorem execInsChapter_err {s : Sess} {row : ChapterRow} {s' : Sess} {m : String}
    (h : execInsChapter s row = .err s' m) : s' = s := by
  unfold execInsChapter at h
  split_ifs at h <;> cases h <;> rfl

theorem execInsVerse_ok {s : Sess} {row : VerseRow} {s' : Sess}
    (h : execInsVerse s row = .ok s') :
    s'.db.chapters = s.db.chapters
    ∧ s'.db.verses = s.db.verses ++ [row]
    ∧ s'.db.pages = s.db.pages
    ∧ s'.db.page_verses = s.db.page_verses
    ∧ s'.trace = s.trace ++ [.insVerse row]
    ∧ row.chapter_id ∈ chapterIds s.db
    ∧ row.verse_number ≠ 0
    ∧ (s.db.verses.any fun v =>
        v.chapter_id == row.chapter_id && v.verse_number == row.verse_number) = false := by
  unfold execInsVerse at h
  split_ifs at h with h1 h2 h3
  all_goals cases h
  exact ⟨rfl, rfl, rfl, rfl, rfl, h1, h2, by simpa using h3⟩

theorem execInsVerse_err {s : Sess} {row : VerseRow} {s' : Sess} {m : String}
    (h : execInsVerse s row = .err s' m) : s' = s := by
  unfold execInsVerse at h
  split_ifs at h <;> cases h <;> rfl

theorem execInsPage_fields (s : Sess) (p : Nat) :
    (execInsPage s p).db.chapters = s.db.chapters
    ∧ (execInsPage s p).db.verses = s.db.verses
    ∧ (execInsPage s p).db.page_verses = s.db.page_verses
    ∧ ((execInsPage s p).db.pages = s.db.pages ∧ p ∈ s.db.pages
        ∨ (execInsPage s p).db.pages = s.db.pages ++ [p] ∧ p ∉ s.db.pages) := by
  unfold execInsPage
  split_ifs with h1
  · exact ⟨rfl, rfl, rfl, Or.inl ⟨rfl, h1⟩⟩
  · exact ⟨rfl, rfl, rfl, Or.inr ⟨rfl, h1⟩⟩

theorem execInsPage_trace (s : Sess) (p : Nat) :
    (execInsPage s p).trace = s.trace
    ∨ (execInsPage s p).trace = s.trace ++ [.insPage p] := by
  unfold execInsPage
  split_ifs
  · exact Or.inl rfl
  · exact Or.inr rfl

theorem execInsPage_nodup (s : Sess) (p : Nat) (h : s.db.pages.Nodup) :
    (execInsPage s p).db.pages.Nodup := by
  unfold execInsPage
  split_ifs with h1
  · exact h
  · simp [List.nodup_append, h, h1]

theorem execInsPageVerse_ok {s : Sess} {row : PageVerseRow} {s' : Sess}
    (h : execInsPageVerse s row = .ok s') :
    s'.db.chapters = s.db.chapters
    ∧ s'.db.verses = s.db.verses
    ∧ s'.db.pages = s.db.pages
    ∧ s'.db.page_verses = s.db.page_verses ++ [row]
    ∧ s'.trace = s.trace ++ [.insPageVerse row]
    ∧ (s.db.page_verses.any fun r =>
        r.page_id == row.page_id && r.verse_order == row.verse_order) = false := by
  unfold execInsPageVerse at h
  split_ifs at h with h1 h2 h3 h4
  all_goals cases h
  exact ⟨rfl, rfl, rfl, rfl, rfl, by simpa using h4⟩

theorem execInsPageVerse_err {s : Sess} {row : PageVerseRow} {s' : Sess} {m : String}
    (h : execInsPageVerse s row = .err s' m) : s' = s := by
  unfold execInsPageVerse at h
  split_ifs at h <;> cases h <;> rfl

/-! ## Pass 2: page_verses block structure -/

theorem pvFor_eq_of {db db' : DB} {row : PageVerseRow}
    (h : db'.page_verses = db.page_verses ++ [row]) (q : Nat) :
    pvFor db' q = pvFor db q ++ if row.page_id = q then [row] else [] := by
  unfold pvFor
  rw [h, List.filter_append]
  congr 1
  by_cases hrq : row.page_id = q <;> simp [hrq]

theorem pvFor_eq_same {db db' : DB} (h : db'.page_verses = db.page_verses)
    (q : Nat) : pvFor db' q = pvFor db q := by
  unfold pvFor
  rw [h]

theorem processFrags_pv {p : Nat} {frs : List Fragment} :
    ∀ {cur : Option Nat} {ord : Nat} {cache : Cache} {s s' : Sess} {cache' : Cache},
      processFrags p cur ord cache s frs = .ok s' cache' →
      s'.db.chapters = s.db.chapters
      ∧ s'.db.pages = s.db.pages
      ∧ (∀ q, q ≠ p → pvFor s'.db q = pvFor s.db q)
      ∧ ∃ blk, pvFor s'.db p = pvFor s.db p ++ blk
          ∧ blk.map (·.verse_order) = List.range' ord frs.length 1
          ∧ blk.map (·.starts_new_chapter) = chapterFlags cur frs := by
  induction frs with
  | nil =>
    intro cur ord cache s s' cache' h
    cases h
    exact ⟨rfl, rfl, fun q _ => rfl, [], by simp, rfl, rfl⟩
  | cons f fs ih =>
    intro cur ord cache s s' cache' h
    simp only [processFrags] at h
    cases hfind : cacheFind cache (f.chapter, f.verse) with
    | some vid =>
      simp only [hfind] at h
      cases hpv : execInsPageVerse s ⟨p, vid, ord, decide (cur ≠ some f.chapter)⟩ with
      | err s2 m =>
        simp only [hpv] at h
        cases h
      | ok s2 =>
        simp only [hpv] at h
        obtain ⟨hc2, hv2, hpg2, hpvs2, -, -⟩ := execInsPageVerse_ok hpv
        obtain ⟨ihc, ihp, ihq, blk, ihblk, ihord, ihflag⟩ := ih h
        refine ⟨by rw [ihc, hc2], by rw [ihp, hpg2], ?_, ?_⟩
        · intro q hq
          rw [ihq q hq, pvFor_eq_of hpvs2 q, if_neg (by simpa using Ne.symm hq)]
          simp
        · refine ⟨⟨p, vid, ord, decide (cur ≠ some f.chapter)⟩ :: blk, ?_, ?_, ?_⟩
          · rw [ihblk, pvFor_eq_of hpvs2 p, if_pos rfl, List.append_assoc]
            rfl
          · rw [List.map_cons, ihord, List.length_cons, List.range'_succ]
          · rw [List.map_cons, ihflag]
            rfl
    | none =>
      simp only [hfind] at h
      cases hv : execInsVerse s
          ⟨s.db.verses.length + 1, f.chapter, f.verse, f.text⟩ with
      | err s1 m =>
        simp only [hv] at h
        cases h
      | ok s1 =>
        simp only [hv] at h
        obtain ⟨hc1, hv1, hpg1, hpvs1, -, -, -, -⟩ := execInsVerse_ok hv
        cases hpv : execInsPageVerse s1
            ⟨p, s.db.verses.length + 1, ord, decide (cur ≠ some f.chapter)⟩ with
        | err s2 m =>
          simp only [hpv] at h
          cases h
        | ok s2 =>
          simp only [hpv] at h
          obtain ⟨hc2, hv2, hpg2, hpvs2, -, -⟩ := execInsPageVerse_ok hpv
          obtain ⟨ihc, ihp, ihq, blk, ihblk, ihord, ihflag⟩ := ih h
          refine ⟨by rw [ihc, hc2, hc1], by rw [ihp, hpg2, hpg1], ?_, ?_⟩
          · intro q hq
            rw [ihq q hq, pvFor_eq_of hpvs2 q, if_neg (by simpa using Ne.symm hq),
              pvFor_eq_same hpvs1 q]
            simp
          · refine ⟨⟨p, s.db.verses.length + 1, ord,
              decide (cur ≠ some f.chapter)⟩ :: blk, ?_, ?_, ?_⟩
            · rw [ihblk, pvFor_eq_of hpvs2 p, if_pos rfl, pvFor_eq_same hpvs1 p,
                List.append_assoc]
              rfl
            · rw [List.map_cons, ihord, List.length_cons, List.range'_succ]
            · rw [List.map_cons, ihflag]
              rfl

theorem processFrags_ok_start {p : Nat} {f : Fragment} {fs : List Fragment}
    {cur : Option Nat} {cache : Cache} {s s' : Sess} {cache' : Cache}
    (h : processFrags p cur 0 cache s (f :: fs) = .ok s' cache') :
    (s.db.page_verses.any fun r => r.page_id == p && r.verse_order == 0) = false := by
  simp only [processFrags] at h
  cases hfind : cacheFind cache (f.chapter, f.verse) with
  | some vid =>
    simp only [hfind] at h
    cases hpv : execInsPageVerse s ⟨p, vid, 0, decide (cur ≠ some f.chapter)⟩ with
    | err s2 m =>
      simp only [hpv] at h
      cases h
    | ok s2 =>
      obtain ⟨-, -, -, -, -, hun⟩ := execInsPageVerse_ok hpv
      simpa using hun
  | none =>
    simp only [hfind] at h
    cases hv : execInsVerse s
        ⟨s.db.verses.length + 1, f.chapter, f.verse, f.text⟩ with
    | err s1 m =>
      simp only [hv] at h
      cases h
    | ok s1 =>
      simp only [hv] at h
      obtain ⟨-, -, -, hpvs1, -, -, -, -⟩ := execInsVerse_ok hv
      cases hpv : execInsPageVerse s1
          ⟨p, s.db.verses.length + 1, 0, decide (cur ≠ some f.chapter)⟩ with
      | err s2 m =>
        simp only [hpv] at h
        cases h
      | ok s2 =>
        obtain ⟨-, -, -, -, -, hun⟩ := execInsPageVerse_ok hpv
        rw [hpvs1] at hun
        simpa using hun

theorem processEntry_inv {e : PageEntry} {st : Sess} {cache : Cache}
    {s' : Sess} {cache' : Cache}
    (h : processEntry st cache e = .ok s' cache')
    (F : Nat → List Fragment)
    (hF : ∀ q, (pvFor st.db q).map (·.verse_order) = List.range (F q).length
        ∧ (pvFor st.db q).map (·.starts_new_chapter) = chapterFlags none (F q)) :
    s'.db.chapters = st.db.chapters
    ∧ (st.db.pages.Nodup → s'.db.pages.Nodup)
    ∧ ∀ q, (pvFor s'.db q).map (·.verse_order)
          = List.range ((F q ++ entryFragsFor q e).length)
        ∧ (pvFor s'.db q).map (·.starts_new_chapter)
          = chapterFlags none (F q ++ entryFragsFor q e) := by
  unfold processEntry at h
  obtain ⟨hec, hev, hepv, -⟩ := execInsPage_fields st e.1
  obtain ⟨hc, hpgs, hq, blk, hblk, hord, hflag⟩ := processFrags_pv h
  refine ⟨by rw [hc, hec], fun hnd => by rw [hpgs]; exact execInsPage_nodup st e.1 hnd, ?_⟩
  intro q
  by_cases hqe : q = e.1
  · subst hqe
    have heff : entryFragsFor e.1 e = e.2 := by
      unfold entryFragsFor
      rw [if_pos rfl]
    cases he2 : e.2 with
    | nil =>
      rw [he2] at hord
      simp only [List.length_nil] at hord
      have hblknil : blk = [] := by
        have hmapnil : blk.map (·.verse_order) = [] := by
          rw [hord]
          rfl
        exact List.map_eq_nil_iff.mp hmapnil
      rw [hblknil, List.append_nil] at hblk
      rw [hblk, pvFor_eq_same hepv e.1, heff, he2, List.append_nil]
      exact hF e.1
    | cons f fs =>
      rw [he2] at h
      have hstart := processFrags_ok_start h
      rw [hepv] at hstart
      have hFnil : F e.1 = [] := by
        cases hFk : F e.1 with
        | nil => rfl
        | cons g gs =>
          exfalso
          have h0 : (0 : Nat) ∈ (pvFor st.db e.1).map (·.verse_order) := by
            rw [(hF e.1).1, hFk]
            simp [List.mem_range]
          obtain ⟨r, hrmem, hr0⟩ := List.mem_map.mp h0
          have hrfull : r ∈ st.db.page_verses ∧ (r.page_id == e.1) = true :=
            List.mem_filter.mp hrmem
          have hany : (st.db.page_verses.any
              fun r => r.page_id == e.1 && r.verse_order == 0) = true := by
            rw [List.any_eq_true]
            exact ⟨r, hrfull.1, by simp [hr0, (by simpa using hrfull.2 : r.page_id = e.1)]⟩
          rw [hany] at hstart
          cases hstart
      have hpvnil : pvFor st.db e.1 = [] := by
        have hmap := (hF e.1).1
        rw [hFnil] at hmap
        exact List.map_eq_nil_iff.mp (by rw [hmap]; rfl)
      rw [hblk, pvFor_eq_same hepv e.1, hpvnil, List.nil_append, heff, hFnil,
        List.nil_append]
      refine ⟨?_, ?_⟩
      · rw [hord, List.range_eq_range']
      · rw [hflag]
  · have heff : entryFragsFor q e = [] := by
      unfold entryFragsFor
      rw [if_neg (fun hh => hqe hh.symm)]
    rw [hq q hqe, pvFor_eq_same hepv q, heff, List.append_nil]
    exact hF q

theorem processEntries_inv {g : Grouping} :
    ∀ {st : Sess} {cache : Cache} {s' : Sess} {cache' : Cache},
      processEntries st cache g = .ok s' cache' →
      ∀ (F : Nat → List Fragment),
      (∀ q, (pvFor st.db q).map (·.verse_order) = List.range (F q).length
          ∧ (pvFor st.db q).map (·.starts_new_chapter) = chapterFlags none (F q)) →
      s'.db.chapters = st.db.chapters
      ∧ (st.db.pages.Nodup → s'.db.pages.Nodup)
      ∧ ∀ q, (pvFor s'.db q).map (·.verse_order)
            = List.range ((F q ++ (g.map (entryFragsFor q)).flatten).length)
          ∧ (pvFor s'.db q).map (·.starts_new_chapter)
            = chapterFlags none (F q ++ (g.map (entryFragsFor q)).flatten) := by
  induction g with
  | nil =>
    intro st cache s' cache' h F hF
    cases h
    simpa using hF
  | cons e es ih =>
    intro st cache s' cache' h F hF
    simp only [processEntries] at h
    cases hpe : processEntry st cache e with
    | err s1 m =>
      simp only [hpe] at h
      cases h
    | ok s1 c1 =>
      simp only [hpe] at h
      obtain ⟨h1c, h1nd, h1F⟩ := processEntry_inv hpe F hF
      obtain ⟨h2c, h2nd, h2F⟩ := ih h (fun q => F q ++ entryFragsFor q e) h1F
      refine ⟨by rw [h2c, h1c], fun hnd => h2nd (h1nd hnd), ?_⟩
      intro q
      have := h2F q
      simpa [List.append_assoc] using this

theorem processGroupings_inv {co : Corpus} :
    ∀ {st : Sess} {cache : Cache} {s' : Sess} {cache' : Cache},
      processGroupings st cache co = .ok s' cache' →
      ∀ (F : Nat → List Fragment),
      (∀ q, (pvFor st.db q).map (·.verse_order) = List.range (F q).length
          ∧ (pvFor st.db q).map (·.starts_new_chapter) = chapterFlags none (F q)) →
      s'.db.chapters = st.db.chapters
      ∧ (st.db.pages.Nodup → s'.db.pages.Nodup)
      ∧ ∀ q, (pvFor s'.db q).map (·.verse_order)
            = List.range ((F q ++ fragsOnPage co q).length)
          ∧ (pvFor s'.db q).map (·.starts_new_chapter)
            = chapterFlags none (F q ++ fragsOnPage co q) := by
  induction co with
  | nil =>
    intro st cache s' cache' h F hF
    cases h
    simpa [fragsOnPage, allEntries] using hF
  | cons g gs ih =>
    intro st cache s' cache' h F hF
    simp only [processGroupings] at h
    cases hpg : processEntries st cache g with
    | err s1 m =>
      simp only [hpg] at h
      cases h
    | ok s1 c1 =>
      simp only [hpg] at h
      obtain ⟨h1c, h1nd, h1F⟩ := processEntries_inv hpg F hF
      obtain ⟨h2c, h2nd, h2F⟩ := ih h
        (fun q => F q ++ (g.map (entryFragsFor q)).flatten) h1F
      refine ⟨by rw [h2c, h1c], fun hnd => h2nd (h1nd hnd), ?_⟩
      intro q
      have hfr : fragsOnPage (g :: gs) q
          = (g.map (entryFragsFor q)).flatten ++ fragsOnPage gs q := by
        simp [fragsOnPage, allEntries]
      rw [hfr]
      have := h2F q
      simpa [List.append_assoc] using this

theorem insertChapters_ok {ns : ChapterNames} :
    ∀ {s s' : Sess} {counts : Nat → Nat},
      insertChapters s counts ns = .ok s' →
      s'.db.verses = s.db.verses
      ∧ s'.db.pages = s.db.pages
      ∧ s'.db.page_verses = s.db.page_verses
      ∧ ∃ rows, s'.db.chapters = s.db.chapters ++ rows
          ∧ ∀ r ∈ rows, r.chapter_id ∈ ns.map (·.1)
              ∧ r.total_verses = counts r.chapter_id := by
  induction ns with
  | nil =>
    intro s s' counts h
    cases h
    exact ⟨rfl, rfl, rfl, [], by simp, by simp⟩
  | cons e rest ih =>
    intro s s' counts h
    simp only [insertChapters] at h
    split_ifs at h with hz
    · obtain ⟨hv, hp, hpv, rows, hrows, hmem⟩ := ih h
      exact ⟨hv, hp, hpv, rows, hrows,
        fun r hr => ⟨by simp [(hmem r hr).1], (hmem r hr).2⟩⟩
    · cases hic : execInsChapter s ⟨e.1, e.2, counts e.1⟩ with
      | err s1 m =>
        simp only [hic] at h
        cases h
      | ok s1 =>
        simp only [hic] at h
        obtain ⟨h1c, h1v, h1p, h1pv, -, -, -⟩ := execInsChapter_ok hic
        obtain ⟨hv, hp, hpv, rows, hrows, hmem⟩ := ih h
        refine ⟨by rw [hv, h1v], by rw [hp, h1p], by rw [hpv, h1pv],
          ⟨e.1, e.2, counts e.1⟩ :: rows, ?_, ?_⟩
        · rw [hrows, h1c, List.append_assoc]
          rfl
        · intro r hr
          rcases List.mem_cons.mp hr with hr0 | hr1
          · subst hr0
            exact ⟨by simp, rfl⟩
          · exact ⟨by simp [(hmem r hr1).1], (hmem r hr1).2⟩

/-! ## Destructuring a completed load -/

theorem loadData_success {co : Corpus} {ns : ChapterNames} {s : Sess}
    (h : loadData (some co) (some ns) = .success s) :
    ∃ s0, runLoad co ns = .ok s0 ∧ s.db = s0.db
      ∧ s.trace = s0.trace ++ [Stmt.commit] ∧ ns ≠ [] := by
  have hld : loadData (some co) (some ns)
      = (if ns = [] then LoadOutcome.silentAbort
         else match runLoad co ns with
           | .ok s0 => .success ⟨s0.db, s0.trace ++ [.commit]⟩
           | .err s0 m => .raised s0 m) := rfl
  by_cases hns : ns = []
  · rw [hld, if_pos hns] at h
    cases h
  · rw [hld, if_neg hns] at h
    cases hr : runLoad co ns with
    | ok s0 =>
      rw [hr] at h
      cases h
      exact ⟨s0, rfl, rfl, rfl, hns⟩
    | err s0 m =>
      rw [hr] at h
      cases h

theorem runLoad_ok {co : Corpus} {ns : ChapterNames} {s0 : Sess}
    (h : runLoad co ns = .ok s0) :
    ∃ s1 cache', insertChapters ⟨DB.empty, []⟩ (calculateVerseCounts co) ns = .ok s1
      ∧ processGroupings s1 [] co = .ok s0 cache' := by
  unfold runLoad at h
  cases hic : insertChapters ⟨DB.empty, []⟩ (calculateVerseCounts co) ns with
  | err s1 m =>
    simp only [hic] at h
    cases h
  | ok s1 =>
    simp only [hic] at h
    cases hpg : processGroupings s1 [] co with
    | ok s2 c2 =>
      simp only [hpg] at h
      cases h
      exact ⟨s1, c2, rfl, hpg⟩
    | err s2 m =>
      simp only [hpg] at h
      cases h

theorem pass2_initial_inv {co : Corpus} {ns : ChapterNames} {s1 : Sess}
    (hic : insertChapters ⟨DB.empty, []⟩ (calculateVerseCounts co) ns = .ok s1) :
    ∀ q, (pvFor s1.db q).map (·.verse_order) = List.range (([] : List Fragment)).length
      ∧ (pvFor s1.db q).map (·.starts_new_chapter)
        = chapterFlags none ([] : List Fragment) := by
  obtain ⟨-, -, hpv1, -⟩ := insertChapters_ok hic
  intro q
  have hnil : pvFor s1.db q = [] := by
    unfold pvFor
    rw [hpv1]
    rfl
  simp [hnil, chapterFlags]

/-- C3: in every successfully committed load run, for every page p the
verse_order values of the page_verses rows for p, read in insertion
order, are exactly 0, 1, ..., k-1 where k is the number of fragments
appearing on page p anywhere in the corpus document — no gaps, no
repeats. -/
theorem C3_order_contiguity (co : Corpus) (ns : ChapterNames) (s : Sess)
    (h : loadData (some co) (some ns) = .success s) (p : Nat) :
    (pvFor s.db p).map (·.verse_order) = List.range (fragsOnPage co p).length := by
  obtain ⟨s0, hrun, hdb, -, -⟩ := loadData_success h
  obtain ⟨s1, cache', hic, hpg⟩ := runLoad_ok hrun
  obtain ⟨-, -, hF⟩ := processGroupings_inv hpg (fun _ => []) (pass2_initial_inv hic)
  have hp := (hF p).1
  rw [hdb]
  simpa using hp

/-- The session produced by loading `corpusSimple` with `namesCh1`. -/
def simpleSess : Sess :=
  ⟨⟨[⟨1, "Ch1", 1⟩], [⟨1, 1, 1, "a"⟩], [1], [⟨1, 1, 0, true⟩]⟩,
   [.insChapter ⟨1, "Ch1", 1⟩, .insPage 1, .insVerse ⟨1, 1, 1, "a"⟩,
    .insPageVerse ⟨1, 1, 0, true⟩, .commit]⟩

/-- Witness for C3 on a concrete successful load. -/
theorem C3_order_contiguity_witness :
    (pvFor simpleSess.db 1).map (·.verse_order)
      = List.range (fragsOnPage corpusSimple 1).length :=
  C3_order_contiguity corpusSimple namesCh1 simpleSess rfl 1

theorem chapterFlags_length (l : List Fragment) :
    ∀ cur, (chapterFlags cur l).length = l.length := by
  induction l with
  | nil => intro cur; rfl
  | cons f fs ih =>
    intro cur
    simp [chapterFlags, ih]

theorem chapterFlags_get (l : List Fragment) :
    ∀ (cur : Option Nat) (i : Nat) (hf : i < (chapterFlags cur l).length)
      (hi : i < l.length),
      ((chapterFlags cur l).get ⟨i, hf⟩ = true
        ↔ (if i = 0 then cur else (l[i-1]?).map (·.chapter))
            ≠ some ((l.get ⟨i, hi⟩).chapter)) := by
  induction l with
  | nil =>
    intro cur i hf hi
    exact absurd hi (by simp)
  | cons f fs ih =>
    intro cur i hf hi
    cases i with
    | zero =>
      simp [chapterFlags]
    | succ j =>
      have hf' : j < (chapterFlags (some f.chapter) fs).length := by
        have := hf
        simp [chapterFlags] at this
        rw [chapterFlags_length]
        rwa [chapterFlags_length] at this
      have hi' : j < fs.length := by simpa using hi
      have hstep : (chapterFlags cur (f :: fs)).get ⟨j + 1, hf⟩
          = (chapterFlags (some f.chapter) fs).get ⟨j, hf'⟩ := rfl
      rw [hstep, ih (some f.chapter) j hf' hi']
      have hget : (f :: fs).get ⟨j + 1, hi⟩ = fs.get ⟨j, hi'⟩ := rfl
      rw [hget]
      cases j with
      | zero => simp
      | succ k =>
        have h1 : ((f :: fs)[k + 1 + 1 - 1]?) = (fs[k]? : Option Fragment) := by
          simp
        rw [h1]
        simp

/-- C4: in every successfully committed load run, for every page p the
page_verses rows for p (in insertion order, i.e. ascending verse_order)
carry `starts_new_chapter = true` exactly at position 0 and at every
position whose fragment's chapter differs from the immediately
preceding fragment's chapter on that page; the chapter cursor is reset
at the start of each page, which is what makes position 0 always
true. -/
theorem C4_chapter_boundary (co : Corpus) (ns : ChapterNames) (s : Sess)
    (h : loadData (some co) (some ns) = .success s) (p : Nat) :
    (pvFor s.db p).length = (fragsOnPage co p).length
    ∧ ∀ (i : Nat) (hr : i < (pvFor s.db p).length)
        (hf : i < (fragsOnPage co p).length),
      (((pvFor s.db p).get ⟨i, hr⟩).starts_new_chapter = true
        ↔ (i = 0 ∨ ((fragsOnPage co p)[i-1]?).map (·.chapter)
            ≠ some (((fragsOnPage co p).get ⟨i, hf⟩).chapter))) := by
  obtain ⟨s0, hrun, hdb, -, -⟩ := loadData_success h
  obtain ⟨s1, cache', hic, hpg⟩ := runLoad_ok hrun
  obtain ⟨-, -, hF⟩ := processGroupings_inv hpg (fun _ => []) (pass2_initial_inv hic)
  have hfl : (pvFor s.db p).map (·.starts_new_chapter)
      = chapterFlags none (fragsOnPage co p) := by
    have := (hF p).2
    rw [hdb]
    simpa using this
  have hlen : (pvFor s.db p).length = (fragsOnPage co p).length := by
    have hg := congrArg List.length hfl
    rw [List.length_map, chapterFlags_length] at hg
    exact hg
  refine ⟨hlen, fun i hr hf => ?_⟩
  have hfcl : i < (chapterFlags none (fragsOnPage co p)).length := by
    rw [chapterFlags_length]
    exact hf
  have hsome : some (((pvFor s.db p).get ⟨i, hr⟩).starts_new_chapter)
      = some ((chapterFlags none (fragsOnPage co p)).get ⟨i, hfcl⟩) := by
    calc some (((pvFor s.db p).get ⟨i, hr⟩).starts_new_chapter)
        = ((pvFor s.db p)[i]?).map (·.starts_new_chapter) := by
          rw [List.getElem?_eq_getElem hr]
          rfl
      _ = ((pvFor s.db p).map (·.starts_new_chapter))[i]? := by
          rw [List.getElem?_map]
      _ = (chapterFlags none (fragsOnPage co p))[i]? := by rw [hfl]
      _ = some ((chapterFlags none (fragsOnPage co p)).get ⟨i, hfcl⟩) := by
          rw [List.getElem?_eq_getElem hfcl]
          rfl
  have hflag := Option.some_injective _ hsome
  rw [hflag, chapterFlags_get (fragsOnPage co p) none i hfcl hf]
  cases i with
  | zero => simp
  | succ j => simp

/-- Witness for C4 on a concrete successful load. -/
theorem C4_chapter_boundary_witness :
    (pvFor simpleSess.db 1).length = (fragsOnPage corpusSimple 1).length :=
  (C4_chapter_boundary corpusSimple namesCh1 simpleSess rfl 1).1

theorem rows_empty_of_no_order0 {st : Sess} {p : Nat} {F : List Fragment}
    (hF : (pvFor st.db p).map (·.verse_order) = List.range F.length)
    (hstart : (st.db.page_verses.any
      fun r => r.page_id == p && r.verse_order == 0) = false) :
    F = [] := by
  cases hFk : F with
  | nil => rfl
  | cons g gs =>
    exfalso
    have h0 : (0 : Nat) ∈ (pvFor st.db p).map (·.verse_order) := by
      rw [hF, hFk]
      simp [List.mem_range]
    obtain ⟨r, hrmem, hr0⟩ := List.mem_map.mp h0
    have hrfull : r ∈ st.db.page_verses ∧ (r.page_id == p) = true :=
      List.mem_filter.mp hrmem
    have hany : (st.db.page_verses.any
        fun r => r.page_id == p && r.verse_order == 0) = true := by
      rw [List.any_eq_true]
      exact ⟨r, hrfull.1, by simp [hr0, (by simpa using hrfull.2 : r.page_id = p)]⟩
    rw [hany] at hstart
    cases hstart

theorem processEntry_start_empty {e : PageEntry} {st : Sess} {cache : Cache}
    {s' : Sess} {cache' : Cache} (h : processEntry st cache e = .ok s' cache')
    (hne : e.2 ≠ []) :
    (st.db.page_verses.any
      fun r => r.page_id == e.1 && r.verse_order == 0) = false := by
  unfold processEntry at h
  obtain ⟨-, -, hepv, -⟩ := execInsPage_fields st e.1
  cases he2 : e.2 with
  | nil => exact absurd he2 hne
  | cons f fs =>
    rw [he2] at h
    have hstart := processFrags_ok_start h
    rwa [hepv] at hstart

theorem entryFlatten_nil_iff (g : Grouping) (p : Nat) :
    ((g.map (entryFragsFor p)).flatten = [])
      ↔ (g.filter fun e => e.1 == p && decide (e.2 ≠ [])) = [] := by
  induction g with
  | nil => simp
  | cons e es ih =>
    rw [List.map_cons, List.flatten_cons, List.filter_cons, List.append_eq_nil]
    have hef : (entryFragsFor p e = [])
        ↔ ((e.1 == p && decide (e.2 ≠ [])) = false) := by
      unfold entryFragsFor
      by_cases hp : e.1 = p
      · rw [if_pos hp]
        by_cases hr : e.2 = []
        · simp [hp, hr]
        · simp [hp, hr]
      · rw [if_neg hp]
        simp [hp]
    constructor
    · intro hc
      rw [if_neg (by rw [hef.mp hc.1]; simp)]
      exact ih.mp hc.2
    · intro hfil
      by_cases hpred : (e.1 == p && decide (e.2 ≠ [])) = true
      · rw [if_pos hpred] at hfil
        cases hfil
      · rw [if_neg hpred] at hfil
        refine ⟨hef.mpr ?_, ih.mpr hfil⟩
        simpa using hpred

theorem processEntries_atMostOne {g : Grouping} :
    ∀ {st : Sess} {cache : Cache} {s' : Sess} {cache' : Cache},
      processEntries st cache g = .ok s' cache' →
      ∀ (F : Nat → List Fragment),
      (∀ q, (pvFor st.db q).map (·.verse_order) = List.range (F q).length
          ∧ (pvFor st.db q).map (·.starts_new_chapter) = chapterFlags none (F q)) →
      ∀ p, (if F p = [] then 0 else 1)
        + (g.filter fun e => e.1 == p && decide (e.2 ≠ [])).length ≤ 1 := by
  induction g with
  | nil =>
    intro st cache s' cache' h F hF p
    simp only [List.filter_nil, List.length_nil]
    split_ifs <;> omega
  | cons e es ih =>
    intro st cache s' cache' h F hF p
    simp only [processEntries] at h
    cases hpe : processEntry st cache e with
    | err s1 m =>
      simp only [hpe] at h
      cases h
    | ok s1 c1 =>
      simp only [hpe] at h
      obtain ⟨-, -, h1F⟩ := processEntry_inv hpe F hF
      have hies := ih h (fun q => F q ++ entryFragsFor q e) h1F p
      rw [List.filter_cons]
      by_cases hpred : (e.1 == p && decide (e.2 ≠ [])) = true
      · have hsplit : e.1 = p ∧ e.2 ≠ [] := by simpa using hpred
        have hstart := processEntry_start_empty hpe hsplit.2
        rw [hsplit.1] at hstart
        have hFnil : F p = [] := rows_empty_of_no_order0 (hF p).1 hstart
        have heff : entryFragsFor p e = e.2 := by
          unfold entryFragsFor
          rw [if_pos hsplit.1]
        have hF'ne : ¬(F p ++ entryFragsFor p e = []) := by
          rw [hFnil, List.nil_append, heff]
          exact hsplit.2
        rw [if_neg hF'ne] at hies
        rw [if_pos hFnil, if_pos hpred]
        simp only [List.length_cons]
        omega
      · have heff : entryFragsFor p e = [] := by
          unfold entryFragsFor
          by_cases hp : e.1 = p
          · rw [if_pos hp]
            simpa [hp] using hpred
          · rw [if_neg hp]
        rw [show F p ++ entryFragsFor p e = F p from by
          rw [heff, List.append_nil]] at hies
        rw [if_neg hpred]
        exact hies

theorem processGroupings_atMostOne {co : Corpus} :
    ∀ {st : Sess} {cache : Cache} {s' : Sess} {cache' : Cache},
      processGroupings st cache co = .ok s' cache' →
      ∀ (F : Nat → List Fragment),
      (∀ q, (pvFor st.db q).map (·.verse_order) = List.range (F q).length
          ∧ (pvFor st.db q).map (·.starts_new_chapter) = chapterFlags none (F q)) →
      ∀ p, (if F p = [] then 0 else 1)
        + ((allEntries co).filter fun e => e.1 == p && decide (e.2 ≠ [])).length
          ≤ 1 := by
  induction co with
  | nil =>
    intro st cache s' cache' h F hF p
    have hnil : allEntries ([] : Corpus) = [] := rfl
    rw [hnil]
    simp only [List.filter_nil, List.length_nil]
    split_ifs <;> omega
  | cons g gs ih =>
    intro st cache s' cache' h F hF p
    simp only [processGroupings] at h
    cases hpg : processEntries st cache g with
    | err s1 m =>
      simp only [hpg] at h
      cases h
    | ok s1 c1 =>
      simp only [hpg] at h
      obtain ⟨-, -, h1F⟩ := processEntries_inv hpg F hF
      have hcg := processEntries_atMostOne hpg F hF p
      have hcgs := ih h (fun q => F q ++ (g.map (entryFragsFor q)).flatten) h1F p
      have hsplit : allEntries (g :: gs) = g ++ allEntries gs := by
        simp [allEntries]
      rw [hsplit, List.filter_append, List.length_append]
      by_cases hz : (g.filter fun e => e.1 == p && decide (e.2 ≠ [])) = []
      · have hfl : (g.map (entryFragsFor p)).flatten = [] :=
          (entryFlatten_nil_iff g p).mpr hz
        rw [show F p ++ (g.map (entryFragsFor p)).flatten = F p from by
          rw [hfl, List.append_nil]] at hcgs
        rw [hz]
        simp only [List.length_nil]
        omega
      · have hFpnil : F p = [] := by
          by_cases hFp : F p = []
          · exact hFp
          · exfalso
            rw [if_neg hFp] at hcg
            have hpos : 1 ≤ (g.filter
                fun e => e.1 == p && decide (e.2 ≠ [])).length := by
              cases hfe : g.filter fun e => e.1 == p && decide (e.2 ≠ []) with
              | nil => exact absurd hfe hz
              | cons x xs => simp
            omega
        have hflne : (g.map (entryFragsFor p)).flatten ≠ [] := fun hc =>
          hz ((entryFlatten_nil_iff g p).mp hc)
        have hF'ne : ¬(F p ++ (g.map (entryFragsFor p)).flatten = []) := by
          rw [hFpnil, List.nil_append]
          exact hflne
        rw [if_neg hF'ne] at hcgs
        rw [if_pos hFpnil] at hcg ⊢
        omega

/-- The session produced by loading either `corpusDupPageEmpty` or
`corpusDupPageEmptyFirst` with `namesCh1`: the duplicate page
submission's Page insert is ignored, and since only one occurrence of
page 1 carries a fragment the run commits without error in both
orders, yielding the identical store and statement trace. -/
def dupEmptySess : Sess :=
  ⟨⟨[⟨1, "Ch1", 1⟩], [⟨1, 1, 1, "a"⟩], [1], [⟨1, 1, 0, true⟩]⟩,
   [.insChapter ⟨1, "Ch1", 1⟩, .insPage 1, .insVerse ⟨1, 1, 1, "a"⟩,
    .insPageVerse ⟨1, 1, 0, true⟩, .commit]⟩

/-- C5, amended: when the same page number appears twice in the input
groupings, the Page row insertion for the second occurrence is ignored
— in every successfully committed load run the pages table holds no
duplicate rows — and a duplicate page submission can commit without
error when only one of the page's occurrences carries fragments, shown
concretely in both orders (empty duplicate after a fragment-bearing
occurrence, and fragment-bearing duplicate after an empty occurrence,
both committing with the single Page row 1); but "no error raised"
does not hold universally: no committed run has two fragment-bearing
occurrences of the same page number, because the later one restarts
verse_order at 0 and its page_verses insertion hits the
UNIQUE (page_id, verse_order) constraint (see the counterexample). -/
theorem C5_duplicate_page :
    (∀ (co : Corpus) (ns : ChapterNames) (s : Sess),
        loadData (some co) (some ns) = .success s →
          s.db.pages.Nodup
          ∧ ∀ p, ((allEntries co).filter
              fun e => e.1 == p && decide (e.2 ≠ [])).length ≤ 1)
    ∧ loadData (some corpusDupPageEmpty) (some namesCh1)
        = LoadOutcome.success dupEmptySess
    ∧ loadData (some corpusDupPageEmptyFirst) (some namesCh1)
        = LoadOutcome.success dupEmptySess
    ∧ dupEmptySess.db.pages = [1] := by
  refine ⟨fun co ns s h => ?_, rfl, rfl, rfl⟩
  obtain ⟨s0, hrun, hdb, -, -⟩ := loadData_success h
  obtain ⟨s1, cache', hic, hpg⟩ := runLoad_ok hrun
  obtain ⟨-, hp1, -, -⟩ := insertChapters_ok hic
  obtain ⟨-, hnd, -⟩ := processGroupings_inv hpg (fun _ => []) (pass2_initial_inv hic)
  refine ⟨by rw [hdb]; exact hnd (by rw [hp1]; exact List.nodup_nil), fun p => ?_⟩
  have hcnt := processGroupings_atMostOne hpg (fun _ => []) (pass2_initial_inv hic) p
  simpa using hcnt

/-- Witness for C5 applying the no-duplicate-pages part to the
concrete duplicate-page load. -/
theorem C5_duplicate_page_witness : dupEmptySess.db.pages.Nodup :=
  (C5_duplicate_page.1 corpusDupPageEmpty namesCh1 dupEmptySess rfl).1

/-! ## Pass 2: the dedup cache and the verses table -/

/-- The (chapter, verse number) natural keys of the verses table, in
insertion order. -/
def versePairs (db : DB) : List (Nat × Nat) :=
  db.verses.map fun v => (v.chapter_id, v.verse_number)

theorem cacheFind_some_mem {c : Cache} {k : Nat × Nat} {v : Nat}
    (h : cacheFind c k = some v) : k ∈ c.map (·.1) := by
  induction c with
  | nil => cases h
  | cons e es ih =>
    by_cases he : e.1 = k
    · simp [← he]
    · rw [show cacheFind (e :: es) k = cacheFind es k from by simp [cacheFind, he]] at h
      simp [ih h]

theorem cacheFind_none_not_mem {c : Cache} {k : Nat × Nat}
    (h : cacheFind c k = none) : k ∉ c.map (·.1) := by
  induction c with
  | nil => simp
  | cons e es ih =>
    by_cases he : e.1 = k
    · rw [show cacheFind (e :: es) k = some e.2 from by simp [cacheFind, he]] at h
      cases h
    · rw [show cacheFind (e :: es) k = cacheFind es k from by simp [cacheFind, he]] at h
      intro hmem
      rw [List.map_cons] at hmem
      rcases List.mem_cons.mp hmem with h1 | h2
      · exact he h1.symm
      · exact (ih h) h2

theorem processFrags_vinv {p : Nat} {frs : List Fragment} :
    ∀ {cur : Option Nat} {ord : Nat} {cache : Cache} {s s' : Sess} {cache' : Cache},
      processFrags p cur ord cache s frs = .ok s' cache' →
      ∀ (S : List (Nat × Nat)),
      versePairs s.db = cache.map (·.1) →
      (cache.map (·.1)).Nodup →
      (∀ pr, pr ∈ cache.map (·.1) ↔ pr ∈ S) →
      (∀ v ∈ s.db.verses, v.chapter_id ∈ chapterIds s.db) →
      s'.db.chapters = s.db.chapters
      ∧ versePairs s'.db = cache'.map (·.1)
      ∧ (cache'.map (·.1)).Nodup
      ∧ (∀ pr, pr ∈ cache'.map (·.1) ↔ pr ∈ S ++ pairsOf frs)
      ∧ (∀ v ∈ s'.db.verses, v.chapter_id ∈ chapterIds s'.db) := by
  induction frs with
  | nil =>
    intro cur ord cache s s' cache' h S hpairs hnd hiff hfk
    cases h
    exact ⟨rfl, hpairs, hnd, fun pr => by simpa [pairsOf] using hiff pr, hfk⟩
  | cons f fs ih =>
    intro cur ord cache s s' cache' h S hpairs hnd hiff hfk
    simp only [processFrags] at h
    cases hfind : cacheFind cache (f.chapter, f.verse) with
    | some vid =>
      simp only [hfind] at h
      cases hpv : execInsPageVerse s ⟨p, vid, ord, decide (cur ≠ some f.chapter)⟩ with
      | err s2 m =>
        simp only [hpv] at h
        cases h
      | ok s2 =>
        simp only [hpv] at h
        obtain ⟨hc2, hv2, -, -, -, -⟩ := execInsPageVerse_ok hpv
        have hpairs2 : versePairs s2.db = cache.map (·.1) := by
          unfold versePairs
          rw [hv2]
          exact hpairs
        have hfk2 : ∀ v ∈ s2.db.verses, v.chapter_id ∈ chapterIds s2.db := by
          intro v hv
          rw [hv2] at hv
          unfold chapterIds
          rw [hc2]
          exact hfk v hv
        have hiff2 : ∀ pr, pr ∈ cache.map (·.1) ↔ pr ∈ S ++ [(f.chapter, f.verse)] := by
          intro pr
          rw [hiff pr]
          constructor
          · intro hS
            exact List.mem_append.mpr (Or.inl hS)
          · intro hS
            rcases List.mem_append.mp hS with h1 | h1
            · exact h1
            · have hk : pr = (f.chapter, f.verse) := by simpa using h1
              rw [hk]
              exact (hiff _).mp (cacheFind_some_mem hfind)
        obtain ⟨ic, ipairs, ind, iiff, ifk⟩ :=
          ih h (S ++ [(f.chapter, f.verse)]) hpairs2 hnd hiff2 hfk2
        refine ⟨by rw [ic, hc2], ipairs, ind, ?_, ifk⟩
        intro pr
        rw [iiff pr]
        simp [pairsOf, List.mem_append, or_assoc]
    | none =>
      simp only [hfind] at h
      cases hv : execInsVerse s
          ⟨s.db.verses.length + 1, f.chapter, f.verse, f.text⟩ with
      | err s1 m =>
        simp only [hv] at h
        cases h
      | ok s1 =>
        simp only [hv] at h
        obtain ⟨hc1, hv1, -, -, -, hfkrow, -, -⟩ := execInsVerse_ok hv
        cases hpv : execInsPageVerse s1
            ⟨p, s.db.verses.length + 1, ord, decide (cur ≠ some f.chapter)⟩ with
        | err s2 m =>
          simp only [hpv] at h
          cases h
        | ok s2 =>
          simp only [hpv] at h
          obtain ⟨hc2, hv2, -, -, -, -⟩ := execInsPageVerse_ok hpv
          have hkey : (f.chapter, f.verse) ∉ cache.map (·.1) :=
            cacheFind_none_not_mem hfind
          have hpairs2 : versePairs s2.db
              = (cache ++ [((f.chapter, f.verse), s.db.verses.length + 1)]).map (·.1) := by
            unfold versePairs at hpairs ⊢
            rw [hv2, hv1, List.map_append, List.map_append, hpairs]
            rfl
          have hnd2 : ((cache ++ [((f.chapter, f.verse), s.db.verses.length + 1)]).map
              (·.1)).Nodup := by
            rw [List.map_append]
            simp [List.nodup_append, hnd, hkey]
          have hiff2 : ∀ pr,
              pr ∈ (cache ++ [((f.chapter, f.verse), s.db.verses.length + 1)]).map (·.1)
                ↔ pr ∈ S ++ [(f.chapter, f.verse)] := by
            intro pr
            rw [List.map_append, List.mem_append, List.mem_append, hiff pr]
            simp
          have hfk2 : ∀ v ∈ s2.db.verses, v.chapter_id ∈ chapterIds s2.db := by
            intro v hvm
            rw [hv2, hv1] at hvm
            unfold chapterIds
            rw [hc2, hc1]
            rcases List.mem_append.mp hvm with h1 | h1
            · exact hfk v h1
            · have hveq : v = ⟨s.db.verses.length + 1, f.chapter, f.verse, f.text⟩ := by
                simpa using h1
              rw [hveq]
              exact hfkrow
          obtain ⟨ic, ipairs, ind, iiff, ifk⟩ :=
            ih h (S ++ [(f.chapter, f.verse)]) hpairs2 hnd2 hiff2 hfk2
          refine ⟨by rw [ic, hc2, hc1], ipairs, ind, ?_, ifk⟩
          intro pr
          rw [iiff pr]
          simp [pairsOf, List.mem_append, or_assoc]

theorem processEntry_vinv {e : PageEntry} {st : Sess} {cache : Cache}
    {s' : Sess} {cache' : Cache}
    (h : processEntry st cache e = .ok s' cache')
    (S : List (Nat × Nat))
    (hpairs : versePairs st.db = cache.map (·.1))
    (hnd : (cache.map (·.1)).Nodup)
    (hiff : ∀ pr, pr ∈ cache.map (·.1) ↔ pr ∈ S)
    (hfk : ∀ v ∈ st.db.verses, v.chapter_id ∈ chapterIds st.db) :
    s'.db.chapters = st.db.chapters
    ∧ versePairs s'.db = cache'.map (·.1)
    ∧ (cache'.map (·.1)).Nodup
    ∧ (∀ pr, pr ∈ cache'.map (·.1) ↔ pr ∈ S ++ pairsOf e.2)
    ∧ (∀ v ∈ s'.db.verses, v.chapter_id ∈ chapterIds s'.db) := by
  unfold processEntry at h
  obtain ⟨hec, hev, -, -⟩ := execInsPage_fields st e.1
  have hpairs1 : versePairs (execInsPage st e.1).db = cache.map (·.1) := by
    unfold versePairs
    rw [hev]
    exact hpairs
  have hfk1 : ∀ v ∈ (execInsPage st e.1).db.verses,
      v.chapter_id ∈ chapterIds (execInsPage st e.1).db := by
    intro v hv
    rw [hev] at hv
    unfold chapterIds
    rw [hec]
    exact hfk v hv
  obtain ⟨ic, ipairs, ind, iiff, ifk⟩ := processFrags_vinv h S hpairs1 hnd hiff hfk1
  exact ⟨by rw [ic, hec], ipairs, ind, iiff, ifk⟩

theorem processEntries_vinv {g : Grouping} :
    ∀ {st : Sess} {cache : Cache} {s' : Sess} {cache' : Cache},
      processEntries st cache g = .ok s' cache' →
      ∀ (S : List (Nat × Nat)),
      versePairs st.db = cache.map (·.1) →
      (cache.map (·.1)).Nodup →
      (∀ pr, pr ∈ cache.map (·.1) ↔ pr ∈ S) →
      (∀ v ∈ st.db.verses, v.chapter_id ∈ chapterIds st.db) →
      s'.db.chapters = st.db.chapters
      ∧ versePairs s'.db = cache'.map (·.1)
      ∧ (cache'.map (·.1)).Nodup
      ∧ (∀ pr, pr ∈ cache'.map (·.1)
          ↔ pr ∈ S ++ pairsOf ((g.map (·.2)).flatten))
      ∧ (∀ v ∈ s'.db.verses, v.chapter_id ∈ chapterIds s'.db) := by
  induction g with
  | nil =>
    intro st cache s' cache' h S hpairs hnd hiff hfk
    cases h
    exact ⟨rfl, hpairs, hnd, fun pr => by simpa [pairsOf] using hiff pr, hfk⟩
  | cons e es ih =>
    intro st cache s' cache' h S hpairs hnd hiff hfk
    simp only [processEntries] at h
    cases hpe : processEntry st cache e with
    | err s1 m =>
      simp only [hpe] at h
      cases h
    | ok s1 c1 =>
      simp only [hpe] at h
      obtain ⟨e_c, e_pairs, e_nd, e_iff, e_fk⟩ :=
        processEntry_vinv hpe S hpairs hnd hiff hfk
      obtain ⟨ic, ipairs, ind, iiff, ifk⟩ :=
        ih h (S ++ pairsOf e.2) e_pairs e_nd e_iff e_fk
      refine ⟨by rw [ic, e_c], ipairs, ind, ?_, ifk⟩
      intro pr
      rw [iiff pr]
      simp [pairsOf, List.mem_append, or_assoc]

theorem allFrags_cons (g : Grouping) (gs : Corpus) :
    allFrags (g :: gs) = ((g.map (·.2)).flatten) ++ allFrags gs := by
  simp [allFrags, allEntries]

theorem processGroupings_vinv {co : Corpus} :
    ∀ {st : Sess} {cache : Cache} {s' : Sess} {cache' : Cache},
      processGroupings st cache co = .ok s' cache' →
      ∀ (S : List (Nat × Nat)),
      versePairs st.db = cache.map (·.1) →
      (cache.map (·.1)).Nodup →
      (∀ pr, pr ∈ cache.map (·.1) ↔ pr ∈ S) →
      (∀ v ∈ st.db.verses, v.chapter_id ∈ chapterIds st.db) →
      s'.db.chapters = st.db.chapters
      ∧ versePairs s'.db = cache'.map (·.1)
      ∧ (cache'.map (·.1)).Nodup
      ∧ (∀ pr, pr ∈ cache'.map (·.1) ↔ pr ∈ S ++ pairsOf (allFrags co))
      ∧ (∀ v ∈ s'.db.verses, v.chapter_id ∈ chapterIds s'.db) := by
  induction co with
  | nil =>
    intro st cache s' cache' h S hpairs hnd hiff hfk
    cases h
    refine ⟨rfl, hpairs, hnd, fun pr => ?_, hfk⟩
    have : allFrags ([] : Corpus) = [] := rfl
    simpa [pairsOf, this] using hiff pr
  | cons g gs ih =>
    intro st cache s' cache' h S hpairs hnd hiff hfk
    simp only [processGroupings] at h
    cases hpg : processEntries st cache g with
    | err s1 m =>
      simp only [hpg] at h
      cases h
    | ok s1 c1 =>
      simp only [hpg] at h
      obtain ⟨g_c, g_pairs, g_nd, g_iff, g_fk⟩ :=
        processEntries_vinv hpg S hpairs hnd hiff hfk
      obtain ⟨ic, ipairs, ind, iiff, ifk⟩ :=
        ih h (S ++ pairsOf ((g.map (·.2)).flatten)) g_pairs g_nd g_iff g_fk
      refine ⟨by rw [ic, g_c], ipairs, ind, ?_, ifk⟩
      intro pr
      rw [iiff pr, allFrags_cons]
      simp [pairsOf, List.mem_append, or_assoc]

theorem countP_eq_one_of_nodup {α : Type _} (p : α → Bool) (a : α)
    (hpa : p a = true) (huniq : ∀ x, p x = true → x = a) :
    ∀ {l : List α}, l.Nodup → a ∈ l → l.countP p = 1 := by
  intro l
  induction l with
  | nil =>
    intro _ ha
    cases ha
  | cons b bs ih =>
    intro hnd ha
    rw [List.countP_cons]
    have hndtail : bs.Nodup := (List.nodup_cons.mp hnd).2
    have hbnotin : b ∉ bs := (List.nodup_cons.mp hnd).1
    rcases List.mem_cons.mp ha with heq | hmem
    · subst heq
      rw [hpa]
      have hzero : bs.countP p = 0 := by
        rw [List.countP_eq_zero]
        intro x hx hpx
        have hxa := huniq x hpx
        rw [hxa] at hx
        exact hbnotin hx
      rw [hzero]
      simp
    · have hpb : p b = false := by
        cases hpbv : p b with
        | false => rfl
        | true =>
          have hba := huniq b hpbv
          rw [hba] at hbnotin
          exact absurd hmem hbnotin
      rw [hpb, ih hndtail hmem]
      simp

/-- C2: in every successfully committed load run, every
(chapter, verse number) pair appearing in any fragment of the corpus
document is carried by exactly one row of the verses table, no matter
how many pages or fragments reference it — the dedup map inserts the
verse only at the first sight of the pair and reuses its id
afterwards. -/
theorem C2_verse_uniqueness (co : Corpus) (ns : ChapterNames) (s : Sess)
    (h : loadData (some co) (some ns) = .success s)
    (c v : Nat) (hmem : (c, v) ∈ pairsOf (allFrags co)) :
    (s.db.verses.filter fun r => r.chapter_id == c && r.verse_number == v).length
      = 1 := by
  obtain ⟨s0, hrun, hdb, -, -⟩ := loadData_success h
  obtain ⟨s1, cacheF, hic, hpg⟩ := runLoad_ok hrun
  obtain ⟨hv1, -, -, -⟩ := insertChapters_ok hic
  have hpairs1 : versePairs s1.db = ([] : Cache).map (·.1) := by
    unfold versePairs
    rw [hv1]
    rfl
  have hfk1 : ∀ vr ∈ s1.db.verses, vr.chapter_id ∈ chapterIds s1.db := by
    intro vr hvr
    rw [hv1] at hvr
    cases hvr
  obtain ⟨-, fpairs, fnd, fiff, -⟩ :=
    processGroupings_vinv hpg [] hpairs1 (by simp) (by simp) hfk1
  have hkeymem : (c, v) ∈ cacheF.map (·.1) := by
    rw [fiff]
    simpa using hmem
  rw [hdb, ← List.countP_eq_length_filter]
  have hcount : (versePairs s0.db).countP (fun pr => pr.1 == c && pr.2 == v) = 1 := by
    rw [fpairs]
    exact countP_eq_one_of_nodup (fun pr => pr.1 == c && pr.2 == v) (c, v)
      (by simp)
      (fun x hx => by
        obtain ⟨x1, x2⟩ := x
        simp at hx
        simp [hx.1, hx.2])
      fnd hkeymem
  have hmap := List.countP_map (fun pr : Nat × Nat => pr.1 == c && pr.2 == v)
    (fun r : VerseRow => (r.chapter_id, r.verse_number)) s0.db.verses
  unfold versePairs at hcount
  rw [hmap] at hcount
  exact hcount

/-- Witness for C2 on a concrete successful load. -/
theorem C2_verse_uniqueness_witness :
    (simpleSess.db.verses.filter
      fun r => r.chapter_id == 1 && r.verse_number == 1).length = 1 :=
  C2_verse_uniqueness corpusSimple namesCh1 simpleSess rfl 1 1 (by decide)

/-! ## Pass 1: the tally counts fragment occurrences -/

theorem calcCountsFrags_eq (l : List Fragment) :
    ∀ (m : Nat → Nat) (c : Nat),
      calcCountsFrags m l c = m c + l.countP (fun f => f.chapter == c) := by
  induction l with
  | nil =>
    intro m c
    simp [calcCountsFrags]
  | cons f fs ih =>
    intro m c
    show calcCountsFrags (bump m f.chapter) fs c = _
    rw [ih, List.countP_cons]
    unfold bump
    by_cases hc : c = f.chapter
    · have hb : (f.chapter == c) = true := by simp [hc]
      rw [if_pos hc, hb]
      simp
      omega
    · have hb : (f.chapter == c) = false := by
        simp
        exact fun hh => hc hh.symm
      rw [if_neg hc, hb]
      simp

theorem calcCountsEntries_eq (g : Grouping) :
    ∀ (m : Nat → Nat) (c : Nat),
      calcCountsEntries m g c
        = m c + ((g.map (·.2)).flatten).countP (fun f => f.chapter == c) := by
  induction g with
  | nil =>
    intro m c
    simp [calcCountsEntries]
  | cons e es ih =>
    intro m c
    show calcCountsEntries (calcCountsFrags m e.2) es c = _
    rw [ih, calcCountsFrags_eq, List.map_cons, List.flatten_cons, List.countP_append]
    omega

theorem calcCountsGroupings_eq (co : Corpus) :
    ∀ (m : Nat → Nat) (c : Nat),
      calcCountsGroupings m co c
        = m c + (allFrags co).countP (fun f => f.chapter == c) := by
  induction co with
  | nil =>
    intro m c
    show m c = _
    have hnil : allFrags ([] : Corpus) = [] := rfl
    simp [hnil]
  | cons g gs ih =>
    intro m c
    show calcCountsGroupings (calcCountsEntries m g) gs c = _
    rw [ih, calcCountsEntries_eq, allFrags_cons, List.countP_append]
    omega

theorem calculateVerseCounts_eq (co : Corpus) (c : Nat) :
    calculateVerseCounts co c = (allFrags co).countP (fun f => f.chapter == c) := by
  unfold calculateVerseCounts
  rw [calcCountsGroupings_eq]
  omega

/-- C1, amended: when every (chapter, verse number) pair occurs at most
once among the corpus document's fragments (true of the real corpus,
where a verse lies on exactly one page), every inserted Chapter row's
total_verses equals the number of distinct Verse rows referencing it;
without that restriction Pass 1 counts fragment occurrences while
Pass 2 deduplicates, and the counts diverge (see the
counterexample). -/
theorem C1_chapter_counts (co : Corpus) (ns : ChapterNames) (s : Sess)
    (hnd : (pairsOf (allFrags co)).Nodup)
    (h : loadData (some co) (some ns) = .success s) :
    ∀ row ∈ s.db.chapters,
      row.total_verses
        = (s.db.verses.filter fun vr => vr.chapter_id == row.chapter_id).length := by
  obtain ⟨s0, hrun, hdb, -, -⟩ := loadData_success h
  obtain ⟨s1, cacheF, hic, hpg⟩ := runLoad_ok hrun
  obtain ⟨hv1, -, -, rows, hrows, hrowfacts⟩ := insertChapters_ok hic
  have hpairs1 : versePairs s1.db = ([] : Cache).map (·.1) := by
    unfold versePairs
    rw [hv1]
    rfl
  have hfk1 : ∀ vr ∈ s1.db.verses, vr.chapter_id ∈ chapterIds s1.db := by
    intro vr hvr
    rw [hv1] at hvr
    cases hvr
  obtain ⟨hGc, fpairs, fnd, fiff, -⟩ :=
    processGroupings_vinv hpg [] hpairs1 (by simp) (by simp) hfk1
  intro row hrowmem
  have hrowsmem : row ∈ rows := by
    rw [hdb, hGc, hrows] at hrowmem
    simpa [DB.empty] using hrowmem
  have htotal : row.total_verses = calculateVerseCounts co row.chapter_id :=
    (hrowfacts row hrowsmem).2
  have hperm : (cacheF.map (·.1)).Perm (pairsOf (allFrags co)) := by
    rw [List.perm_ext_iff_of_nodup fnd hnd]
    intro a
    rw [fiff a]
    simp
  rw [hdb, ← List.countP_eq_length_filter]
  calc row.total_verses
      = calculateVerseCounts co row.chapter_id := htotal
    _ = (allFrags co).countP (fun f => f.chapter == row.chapter_id) :=
        calculateVerseCounts_eq co row.chapter_id
    _ = (pairsOf (allFrags co)).countP (fun pr => pr.1 == row.chapter_id) := by
        unfold pairsOf
        rw [List.countP_map]
        rfl
    _ = (cacheF.map (·.1)).countP (fun pr => pr.1 == row.chapter_id) :=
        (hperm.countP_eq _).symm
    _ = (versePairs s0.db).countP (fun pr => pr.1 == row.chapter_id) := by
        rw [fpairs]
    _ = s0.db.verses.countP (fun vr => vr.chapter_id == row.chapter_id) := by
        unfold versePairs
        rw [List.countP_map]
        rfl

/-- Witness for the amended C1 on a concrete duplicate-free load. -/
theorem C1_chapter_counts_witness :
    (1 : Nat) = (simpleSess.db.verses.filter fun vr => vr.chapter_id == 1).length :=
  C1_chapter_counts corpusSimple namesCh1 simpleSess (by decide) rfl
    ⟨1, "Ch1", 1⟩ (by decide)

/-! ## The single-commit discipline of a load run -/

/-- No commit statement among the result's executed statements. -/
def sresNoCommit : SRes → Prop
  | .ok s => Stmt.commit ∉ s.trace
  | .err s _ => Stmt.commit ∉ s.trace

/-- No commit statement among the result's executed statements. -/
def presNoCommit : PRes → Prop
  | .ok s _ => Stmt.commit ∉ s.trace
  | .err s _ => Stmt.commit ∉ s.trace

theorem execInsChapter_noCommit (s : Sess) (row : ChapterRow)
    (h : Stmt.commit ∉ s.trace) : sresNoCommit (execInsChapter s row) := by
  unfold execInsChapter
  split_ifs <;> simp [sresNoCommit, List.mem_append, h]

theorem execInsVerse_noCommit (s : Sess) (row : VerseRow)
    (h : Stmt.commit ∉ s.trace) : sresNoCommit (execInsVerse s row) := by
  unfold execInsVerse
  split_ifs <;> simp [sresNoCommit, List.mem_append, h]

theorem execInsPage_noCommit (s : Sess) (p : Nat)
    (h : Stmt.commit ∉ s.trace) : Stmt.commit ∉ (execInsPage s p).trace := by
  unfold execInsPage
  split_ifs <;> simp [List.mem_append, h]

theorem execInsPageVerse_noCommit (s : Sess) (row : PageVerseRow)
    (h : Stmt.commit ∉ s.trace) : sresNoCommit (execInsPageVerse s row) := by
  unfold execInsPageVerse
  split_ifs <;> simp [sresNoCommit, List.mem_append, h]

theorem processFrags_noCommit {p : Nat} {frs : List Fragment} :
    ∀ {cur : Option Nat} {ord : Nat} {cache : Cache} {s : Sess},
      Stmt.commit ∉ s.trace → presNoCommit (processFrags p cur ord cache s frs) := by
  induction frs with
  | nil =>
    intro cur ord cache s h
    exact h
  | cons f fs ih =>
    intro cur ord cache s h
    simp only [processFrags]
    cases hfind : cacheFind cache (f.chapter, f.verse) with
    | some vid =>
      cases hpv : execInsPageVerse s ⟨p, vid, ord, decide (cur ≠ some f.chapter)⟩ with
      | err s2 m =>
        have hstep := execInsPageVerse_noCommit s
          ⟨p, vid, ord, decide (cur ≠ some f.chapter)⟩ h
        rw [hpv] at hstep
        simp only [hpv]
        exact hstep
      | ok s2 =>
        have hstep := execInsPageVerse_noCommit s
          ⟨p, vid, ord, decide (cur ≠ some f.chapter)⟩ h
        rw [hpv] at hstep
        simp only [hpv]
        exact ih hstep
    | none =>
      cases hv : execInsVerse s
          ⟨s.db.verses.length + 1, f.chapter, f.verse, f.text⟩ with
      | err s1 m =>
        have hstep := execInsVerse_noCommit s
          ⟨s.db.verses.length + 1, f.chapter, f.verse, f.text⟩ h
        rw [hv] at hstep
        simp only [hv]
        exact hstep
      | ok s1 =>
        have hstep1 := execInsVerse_noCommit s
          ⟨s.db.verses.length + 1, f.chapter, f.verse, f.text⟩ h
        rw [hv] at hstep1
        simp only [hv]
        cases hpv : execInsPageVerse s1
            ⟨p, s.db.verses.length + 1, ord, decide (cur ≠ some f.chapter)⟩ with
        | err s2 m =>
          have hstep2 := execInsPageVerse_noCommit s1
            ⟨p, s.db.verses.length + 1, ord, decide (cur ≠ some f.chapter)⟩ hstep1
          rw [hpv] at hstep2
          simp only [hpv]
          exact hstep2
        | ok s2 =>
          have hstep2 := execInsPageVerse_noCommit s1
            ⟨p, s.db.verses.length + 1, ord, decide (cur ≠ some f.chapter)⟩ hstep1
          rw [hpv] at hstep2
          simp only [hpv]
          exact ih hstep2

theorem processEntry_noCommit {e : PageEntry} {st : Sess} {cache : Cache}
    (h : Stmt.commit ∉ st.trace) : presNoCommit (processEntry st cache e) :=
  processFrags_noCommit (execInsPage_noCommit st e.1 h)

theorem processEntries_noCommit {g : Grouping} :
    ∀ {st : Sess} {cache : Cache},
      Stmt.commit ∉ st.trace → presNoCommit (processEntries st cache g) := by
  induction g with
  | nil =>
    intro st cache h
    exact h
  | cons e es ih =>
    intro st cache h
    simp only [processEntries]
    cases hpe : processEntry st cache e with
    | err s1 m =>
      have hstep := @processEntry_noCommit e st cache h
      rw [hpe] at hstep
      exact hstep
    | ok s1 c1 =>
      have hstep := @processEntry_noCommit e st cache h
      rw [hpe] at hstep
      exact ih hstep

theorem processGroupings_noCommit {co : Corpus} :
    ∀ {st : Sess} {cache : Cache},
      Stmt.commit ∉ st.trace → presNoCommit (processGroupings st cache co) := by
  induction co with
  | nil =>
    intro st cache h
    exact h
  | cons g gs ih =>
    intro st cache h
    simp only [processGroupings]
    cases hpg : processEntries st cache g with
    | err s1 m =>
      have hstep := @processEntries_noCommit g st cache h
      rw [hpg] at hstep
      exact hstep
    | ok s1 c1 =>
      have hstep := @processEntries_noCommit g st cache h
      rw [hpg] at hstep
      exact ih hstep

theorem insertChapters_noCommit {ns : ChapterNames} :
    ∀ {s : Sess} {counts : Nat → Nat},
      Stmt.commit ∉ s.trace → sresNoCommit (insertChapters s counts ns) := by
  induction ns with
  | nil =>
    intro s counts h
    exact h
  | cons e rest ih =>
    intro s counts h
    simp only [insertChapters]
    split_ifs with hz
    · exact ih h
    · cases hic : execInsChapter s ⟨e.1, e.2, counts e.1⟩ with
      | err s1 m =>
        have hstep := execInsChapter_noCommit s ⟨e.1, e.2, counts e.1⟩ h
        rw [hic] at hstep
        exact hstep
      | ok s1 =>
        have hstep := execInsChapter_noCommit s ⟨e.1, e.2, counts e.1⟩ h
        rw [hic] at hstep
        exact ih hstep

theorem runLoad_noCommit (co : Corpus) (ns : ChapterNames) :
    sresNoCommit (runLoad co ns) := by
  unfold runLoad
  cases hic : insertChapters ⟨DB.empty, []⟩ (calculateVerseCounts co) ns with
  | err s1 m =>
    have hstep := @insertChapters_noCommit ns ⟨DB.empty, []⟩ (calculateVerseCounts co) (by simp)
    rw [hic] at hstep
    exact hstep
  | ok s1 =>
    have hstep := @insertChapters_noCommit ns ⟨DB.empty, []⟩ (calculateVerseCounts co) (by simp)
    rw [hic] at hstep
    cases hpg : processGroupings s1 [] co with
    | ok s2 c2 =>
      have hstep2 := @processGroupings_noCommit co s1 [] hstep
      rw [hpg] at hstep2
      simp only [hpg]
      exact hstep2
    | err s2 m =>
      have hstep2 := @processGroupings_noCommit co s1 [] hstep
      rw [hpg] at hstep2
      simp only [hpg]
      exact hstep2

theorem persist_no_commit (init : DB) (tr : List Stmt)
    (h : Stmt.commit ∉ tr) : sqlitePersist init tr = init := by
  unfold sqlitePersist
  have haux : ∀ (l : List Stmt), Stmt.commit ∉ l →
      ∀ pend, (l.foldl persistStep (init, pend)).1 = init := by
    intro l
    induction l with
    | nil =>
      intro _ pend
      rfl
    | cons st sts ih =>
      intro hmem pend
      rw [List.foldl_cons]
      have hst : st ≠ Stmt.commit := fun hh => hmem (hh ▸ List.mem_cons_self st sts)
      have hstep : persistStep (init, pend) st = (init, applyStmt pend st) := by
        cases st with
        | commit => exact absurd rfl hst
        | insChapter r => rfl
        | insVerse r => rfl
        | insPage pp => rfl
        | insPageVerse r => rfl
      rw [hstep]
      exact ih (fun hm => hmem (List.mem_cons_of_mem _ hm)) _
  exact haux tr h init

theorem loadData_raised {co : Corpus} {ns : ChapterNames} {s : Sess} {m : String}
    (h : loadData (some co) (some ns) = .raised s m) :
    runLoad co ns = .err s m := by
  have hld : loadData (some co) (some ns)
      = (if ns = [] then LoadOutcome.silentAbort
         else match runLoad co ns with
           | .ok s0 => .success ⟨s0.db, s0.trace ++ [.commit]⟩
           | .err s0 m0 => .raised s0 m0) := rfl
  by_cases hns : ns = []
  · rw [hld, if_pos hns] at h
    cases h
  · rw [hld, if_neg hns] at h
    cases hr : runLoad co ns with
    | ok s0 =>
      rw [hr] at h
      cases h
    | err s0 m0 =>
      rw [hr] at h
      cases h
      exact rfl

/-- C9: chapter insertion and all of Pass 2 run on one connection with
a single `conn.commit()` as the last statement — on a committed run the
statement trace is commit-free statements followed by exactly one final
commit, and on a failed run the trace contains no commit at all, so by
SQLite's transaction semantics the persisted store is exactly the
pre-load store (no partial rows). -/
theorem C9_single_commit (co : Corpus) (ns : ChapterNames) (init : DB) :
    (∀ s, loadData (some co) (some ns) = .success s →
        ∃ pre, s.trace = pre ++ [Stmt.commit] ∧ Stmt.commit ∉ pre)
    ∧ (∀ s m, loadData (some co) (some ns) = .raised s m →
        Stmt.commit ∉ s.trace ∧ sqlitePersist init s.trace = init) := by
  have hrl : sresNoCommit (runLoad co ns) := runLoad_noCommit co ns
  constructor
  · intro s hs
    obtain ⟨s0, hrun, -, htr, -⟩ := loadData_success hs
    rw [hrun] at hrl
    exact ⟨s0.trace, htr, hrl⟩
  · intro s m hs
    have hrr := loadData_raised hs
    rw [hrr] at hrl
    exact ⟨hrl, persist_no_commit init s.trace hrl⟩

/-- The session at the point where loading `corpusBadChapter` with
`namesCh1` raises: chapter 1 was skipped with a warning (zero tally),
page 1 was inserted, and the first verses insertion for chapter 2 hit
the foreign-key constraint. -/
def badChapterSess : Sess := ⟨⟨[], [], [1], []⟩, [Stmt.insPage 1]⟩

/-- Witness for C9 applying the failed-run part to a concrete load that
raises before its commit. -/
theorem C9_single_commit_witness :
    Stmt.commit ∉ badChapterSess.trace
    ∧ sqlitePersist DB.empty badChapterSess.trace = DB.empty :=
  (C9_single_commit corpusBadChapter namesCh1 DB.empty).2 badChapterSess
    "FOREIGN KEY constraint failed" rfl

/-- C10, amended: if some fragment references a chapter identifier that
the chapter-name map does not cover, and the map is non-empty (an empty
map instead trips the falsy-input check and returns silently — see the
counterexample), then the load run raises (the first verses insertion
for that chapter violates the foreign-key constraint enabled by
`PRAGMA foreign_keys = ON`, or the run has already failed earlier) and
nothing is committed: the persisted store is unchanged. -/
theorem C10_missing_chapter (co : Corpus) (ns : ChapterNames) (init : DB) (c : Nat)
    (hns : ns ≠ [])
    (hfrag : ∃ f ∈ allFrags co, f.chapter = c)
    (habsent : ∀ e ∈ ns, e.1 ≠ c) :
    ∃ s m, loadData (some co) (some ns) = .raised s m
      ∧ sqlitePersist init s.trace = init := by
  have hld : loadData (some co) (some ns)
      = (if ns = [] then LoadOutcome.silentAbort
         else match runLoad co ns with
           | .ok s0 => .success ⟨s0.db, s0.trace ++ [.commit]⟩
           | .err s0 m0 => .raised s0 m0) := rfl
  cases hout : loadData (some co) (some ns) with
  | silentAbort =>
    exfalso
    rw [hld, if_neg hns] at hout
    cases hr : runLoad co ns with
    | ok s0 =>
      rw [hr] at hout
      cases hout
    | err s0 m0 =>
      rw [hr] at hout
      cases hout
  | success s =>
    exfalso
    obtain ⟨f, hfmem, hfc⟩ := hfrag
    obtain ⟨s0, hrun, hdb, -, -⟩ := loadData_success hout
    obtain ⟨s1, cacheF, hic, hpg⟩ := runLoad_ok hrun
    obtain ⟨hv1, -, -, rows, hrows, hrowfacts⟩ := insertChapters_ok hic
    have hpairs1 : versePairs s1.db = ([] : Cache).map (·.1) := by
      unfold versePairs
      rw [hv1]
      rfl
    have hfk1 : ∀ vr ∈ s1.db.verses, vr.chapter_id ∈ chapterIds s1.db := by
      intro vr hvr
      rw [hv1] at hvr
      cases hvr
    obtain ⟨hGc, fpairs, fnd, fiff, ffk⟩ :=
      processGroupings_vinv hpg [] hpairs1 (by simp) (by simp) hfk1
    have hkey : (f.chapter, f.verse) ∈ cacheF.map (·.1) := by
      rw [fiff]
      have : (f.chapter, f.verse) ∈ pairsOf (allFrags co) := by
        unfold pairsOf
        exact List.mem_map.mpr ⟨f, hfmem, rfl⟩
      simpa using this
    have hvp : (f.chapter, f.verse) ∈ versePairs s0.db := by
      rw [fpairs]
      exact hkey
    obtain ⟨vr, hvrmem, hvrpair⟩ := List.mem_map.mp hvp
    have hcid : vr.chapter_id ∈ chapterIds s0.db := ffk vr hvrmem
    unfold chapterIds at hcid
    rw [hGc, hrows] at hcid
    obtain ⟨crow, hcrowmem, hcroweq⟩ := List.mem_map.mp (by
      simpa [DB.empty] using hcid)
    have hkeyns : crow.chapter_id ∈ ns.map (·.1) := (hrowfacts crow hcrowmem).1
    obtain ⟨ne, hnemem, hneeq⟩ := List.mem_map.mp hkeyns
    have hvrc : vr.chapter_id = c := by
      have hfst := congrArg Prod.fst hvrpair
      simpa [hfc] using hfst
    exact habsent ne hnemem (by rw [hneeq, hcroweq, hvrc])
  | raised s m =>
    refine ⟨s, m, rfl, ?_⟩
    have hrl : sresNoCommit (runLoad co ns) := runLoad_noCommit co ns
    have hrr := loadData_raised hout
    rw [hrr] at hrl
    exact persist_no_commit init s.trace hrl

/-- Witness for the amended C10 on a concrete corpus referencing an
uncovered chapter. -/
theorem C10_missing_chapter_witness :
    isRaised (loadData (some corpusBadChapter) (some namesCh1)) = true := by
  obtain ⟨s, m, h1, -⟩ := C10_missing_chapter corpusBadChapter namesCh1 DB.empty 2
    (by decide) ⟨⟨2, 1, "t"⟩, by decide, rfl⟩ (by decide)
  rw [h1]
  rfl
